import Mathlib

/-!
Verification of the newsreap article-content core against its specification.

This file gives a shallow embedding of the data model and operations of
`newsreap/NNTPContent.py`, `newsreap/NNTPArticle.py`, `newsreap/NNTPGroup.py`
and `newsreap/codecs/CodecYenc.py` (the pure-python, `FAST_YENC_SUPPORT =
False` code path of the codec), and proves or refutes the specified
properties of split/append, ordering keys, constructor validation, group
handling and the yEnc encoder/decoder round trip.

Bytes are modelled as `Nat` values (meaningful when `< 256`); a file's
content is a `List Nat`; Python strings on the codec side are byte lists,
while metadata strings (filenames, paths, sort keys) use Lean `String`.
-/

set_option maxHeartbeats 1000000

/-- Model of the state of an `NNTPContent` object (NNTPContent.py).
`payload` stands for the bytes of the backing file (or in-memory buffer);
stream/filemode bookkeeping that only routes I/O is elided.
Python's `self._unique` (`False` or `str(id(self))`) is an `Option String`,
`self._detached` (`None`/`True`/`False`) an `Option Bool`, and the lazily
initialised `self._end` an `Option Int`.  `self.part` is always an `int` in
the source (it is initialised to `1` and only ever assigned `int(..)`
values), so it is modelled as `Int` and the dead `part is None` branch of
`key()` is omitted. -/
structure NNTPContent where
  filename : String
  filepath : Option String
  part : Int
  total_parts : Int
  sort_no : Int
  begin_ : Int
  end_ : Option Int
  total_size : Option Int
  unique_ : Option String
  detached : Option Bool
  is_valid : Bool
  isdir : Bool
  dirty : Bool
  payload : List Nat
  deriving Repr, DecidableEq

namespace NNTPContent

/-- Model of `NNTPContent.write(data)`: append to the stream, and on the
first write (dirty flag not yet set) set the dirty flag and invalidate
`self._end` (`self._end = None`), exactly as lines 921-945 of
NNTPContent.py do. -/
def write (c : NNTPContent) (data : List Nat) : NNTPContent :=
  { c with payload := c.payload ++ data
         , end_ := if c.dirty then c.end_ else none
         , dirty := true }

/-- Model of `NNTPContent.close()`: flushes and clears the dirty flag
(stream/filemode fields are elided). -/
def close (c : NNTPContent) : NNTPContent :=
  { c with dirty := false }

/-- Model of the `NNTPContent.end()` accessor: when `self._end is None` it
is computed as `self._begin + len(self)`. -/
def endPtr (c : NNTPContent) : Int :=
  match c.end_ with
  | none => c.begin_ + (c.payload.length : Int)
  | some e => e

/-- The decimal digit characters `'0'`-`'9'`. -/
def digitCh : Nat → Char
  | 0 => '0' | 1 => '1' | 2 => '2' | 3 => '3' | 4 => '4'
  | 5 => '5' | 6 => '6' | 7 => '7' | 8 => '8' | _ => '9'

/-- Decimal digit characters of a natural number, most significant first
(the digits of Python's `'%d' % n`); fuel-indexed for kernel
reducibility. -/
def decDigits : Nat → Nat → List Char
  | 0, _ => []
  | fuel + 1, n =>
      if n < 10 then [digitCh n]
      else decDigits fuel (n / 10) ++ [digitCh (n % 10)]

/-- Interface wrapper for `decDigits` with always-sufficient fuel. -/
def decRepr (n : Nat) : List Char := decDigits (n + 1) n

/-- Model of `'%.5d' % n` (Python): the decimal digits zero-padded on the
left to width 5, with a leading `-` for negative values. -/
def fmt5 (n : Int) : String :=
  let digits := decRepr n.natAbs
  let padded :=
    if digits.length < 5 then
      List.replicate (5 - digits.length) '0' ++ digits
    else digits
  String.mk (if n < 0 then '-' :: padded else padded)

/-- Model of `NNTPContent.key()` (lines 1079-1092): `"%.5d/%s/%.5d" %
(sort_no, filename, part)`, with `self._unique` appended when set. -/
def key (c : NNTPContent) : String :=
  (fmt5 c.sort_no ++ "/" ++ c.filename ++ "/" ++ fmt5 c.part)
    ++ (match c.unique_ with | some u => u | none => "")

/-- Model of Python string comparison `<`: lexicographic comparison of the
code points. -/
def pyStrLt : List Char → List Char → Bool
  | [], [] => false
  | [], _ :: _ => true
  | _ :: _, [] => false
  | a :: as, b :: bs =>
      if a = b then pyStrLt as bs else decide (a.val < b.val)

/-- Model of `NNTPContent.__lt__` (lines 1320-1324), exactly as written in
the source: `return self.key() < self.key()` (both operands are `self`). -/
def lt (self other : NNTPContent) : Bool :=
  pyStrLt (key self).toList (key self).toList

/-- Insertion step of the `sortedset(key=...)` ordering: the new element
is placed after every element whose sort key string is strictly
smaller. -/
def insortByKey (x : NNTPContent) : List NNTPContent → List NNTPContent
  | [] => [x]
  | y :: rest =>
      if pyStrLt (key y).toList (key x).toList then y :: insortByKey x rest
      else x :: y :: rest

/-- The iteration order of the `sortedset(..., key=lambda x: x.key())`
result that `NNTPContent.split` returns (lines 819-823 and 916-919 of
NNTPContent.py): the children ordered ascending by their `key()`
strings. -/
def sortByKey : List NNTPContent → List NNTPContent
  | [] => []
  | x :: rest => insortByKey x (sortByKey rest)

/-- Strictly ascending `key()` chain. -/
def keysSorted : List NNTPContent → Bool
  | [] => true
  | [_] => true
  | x :: y :: rest =>
      pyStrLt (key x).toList (key y).toList && keysSorted (y :: rest)

/-- Cuts a byte list into consecutive chunks of `S` bytes (the last chunk
holds the remainder).  This is the net data flow of `NNTPContent.split`'s
read/write loop: the source reads the stream in `mem_buf`-sized pieces and
writes into the current child until its `size` quota is filled, so each
child receives exactly the next `S` bytes of the parent regardless of the
`mem_buf` chunking.  Only called with `1 ≤ S`. -/
def chunksOf (S : Nat) : List Nat → List (List Nat)
  | [] => []
  | b :: rest => (b :: rest.take (S - 1)) :: chunksOf S (rest.drop (S - 1))
  termination_by l => l.length
  decreasing_by simp only [List.length_drop, List.length_cons]; omega

/-- Builds the `i`-th (0-based) child object created inside
`NNTPContent.split` (lines 860-881): `NNTPContent(filepath=self.filename,
part=part+1, total_parts=total_parts, begin=(part*size),
end=((part*size)+size), total_size=total_size, work_dir=self.work_dir,
sort_no=self.sort_no)`, freshly attached (its `open()` creates a temp
file), then written with its chunk (which sets the dirty flag and resets
`_end` to `None`) and closed. -/
def mkSplitChild (c : NNTPContent) (size : Int) (total_parts : Nat)
    (i : Nat) (chunk : List Nat) : NNTPContent :=
  close (write
    { filename := c.filename
    , filepath := none
    , part := (i : Int) + 1
    , total_parts := (total_parts : Int)
    , sort_no := c.sort_no
    , begin_ := (i : Int) * size
    , end_ := some ((i : Int) * size + size)
    , total_size := some (c.payload.length : Int)
    , unique_ := none
    , detached := some false
    , is_valid := false
    , isdir := false
    , dirty := false
    , payload := [] } chunk)

/-- Model of `NNTPContent.split(size, mem_buf)` (lines 778-919).  The
source first rejects a zero-length file (`return None`), then a falsy or
negative `size` or `mem_buf` (`return None`), computes `total_parts` with
`divmod`, and produces one attached child per consecutive `size`-byte
chunk of the payload, added to a `sortedset` keyed by `key()`.  The list
returned here is in creation (ascending part) order; the sortedset's
`key()`-string iteration order is `sortByKey` of this list — the two
orders agree exactly while the `'%.5d'` part keys keep their zero
padding, i.e. while every part number stays below 100000.  `None` is
modelled as `none`. -/
def split (c : NNTPContent) (size mem_buf : Int) : Option (List NNTPContent) :=
  if c.payload.length = 0 then
    none
  else if size ≤ 0 then
    none
  else if mem_buf ≤ 0 then
    none
  else
    let S := size.toNat
    let total_parts :=
      c.payload.length / S + (if c.payload.length % S = 0 then 0 else 1)
    some (((chunksOf S c.payload).enum).map
      (fun p => mkSplitChild c size total_parts p.1 p.2))

/-- Model of Python `os.path.basename` restricted to what the claims need:
the substring after the last `/`. -/
def basename (s : String) : String :=
  match (s.splitOn "/").getLast? with
  | some t => t
  | none => s

/-- Model of `NNTPContent.load(filepath)` (lines 514-605) for the case
where `filepath` is a path string.  `is_file`/`is_dir` give the outcome of
`isfile`/`isdir` on the path and `diskBytes` the bytes of the file when it
exists.  Returns the updated object, the boolean result, and the list of
paths passed to `rm` (the source unlinks the prior backing file whenever
the object was attached, before even checking that the new path exists).
The stream close at the top only touches elided stream bookkeeping. -/
def load (c : NNTPContent) (path : String) (is_file is_dir : Bool)
    (diskBytes : List Nat) : NNTPContent × Bool × List String :=
  let removed :=
    if c.detached = some false ∧ c.filepath.isSome then
      [c.filepath.getD ""]
    else []
  let c1 : NNTPContent :=
    { c with isdir := false, detached := some true
           , is_valid := false, unique_ := none }
  if is_dir then
    ({ c1 with isdir := true, filepath := some path, is_valid := true
             , filename := basename path, payload := [] }, true, removed)
  else if is_file = false then
    ({ c1 with filepath := none, filename := "", payload := [] },
     false, removed)
  else
    ({ c1 with filepath := some path, is_valid := true
             , filename := basename path, payload := diskBytes },
     true, removed)

/-- Model of the `part`/`total_parts` validation in `NNTPContent.__init__`
(lines 170-201), for integer inputs: `part` defaults to `1`; when
`total_parts` is given, an `AttributeError` (modelled as `none`) is raised
iff `total_parts < part`; when absent the source sets
`self.total_parts = self.part`. -/
def initPartTotal (part total_parts : Option Int) : Option (Int × Int) :=
  let p := part.getD 1
  match total_parts with
  | some t => if t < p then none else some (p, t)
  | none => some (p, p)

theorem chunksOf_flatten (S : Nat) (l : List Nat) :
    (chunksOf S l).flatten = l := by
  induction l using chunksOf.induct S with
  | case1 => simp [chunksOf]
  | case2 b rest ih =>
      simp only [chunksOf, List.flatten, List.cons_append, ih]
      simp [List.take_append_drop]

theorem chunksOf_length (S : Nat) (hS : 1 ≤ S) (l : List Nat) :
    (chunksOf S l).length = (l.length + S - 1) / S := by
  induction l using chunksOf.induct S with
  | case1 =>
      simp only [chunksOf, List.length_nil]
      symm
      apply Nat.div_eq_of_lt
      omega
  | case2 b rest ih =>
      simp only [chunksOf, List.length_cons, ih, List.length_drop]
      rcases Nat.lt_or_ge rest.length (S - 1) with h | h
      · rw [Nat.sub_eq_zero_of_le (le_of_lt h)]
        have h1 : (0 + S - 1) / S = 0 := by
          apply Nat.div_eq_of_lt; omega
        have h2 : (rest.length + 1 + S - 1) / S = 1 := by
          have hr : rest.length + 1 + S - 1 = rest.length + 1 * S := by omega
          rw [hr, Nat.add_mul_div_right _ _ (by omega : 0 < S),
            Nat.div_eq_of_lt (by omega)]
        omega
      · have hr : rest.length + 1 + S - 1
            = (rest.length - (S - 1) + S - 1) + 1 * S := by
          omega
        rw [hr, Nat.add_mul_div_right _ _ (by omega : 0 < S)]

theorem chunksOf_getElem (S : Nat) (hS : 1 ≤ S) (l : List Nat) (i : Nat)
    (h : i < (chunksOf S l).length) :
    (chunksOf S l)[i] = (l.drop (i * S)).take S := by
  induction l using chunksOf.induct S generalizing i with
  | case1 => simp [chunksOf] at h
  | case2 b rest ih =>
      match i with
      | 0 =>
          simp only [chunksOf, List.getElem_cons_zero, Nat.zero_mul,
            List.drop_zero]
          rw [show S = (S - 1) + 1 by omega]
          simp [List.take_succ_cons]
      | Nat.succ j =>
          simp only [chunksOf, List.getElem_cons_succ]
          rw [ih j (by simpa [chunksOf] using h)]
          rw [List.drop_drop]
          have hs : Nat.succ j * S = (j * S + (S - 1)) + 1 := by
            have := Nat.succ_mul j S
            omega
          rw [hs, List.drop_succ_cons, Nat.add_comm]

/-- Helper: any index below the chunk count addresses a chunk that starts
strictly inside the list. -/
theorem lt_of_lt_chunk_count (S n i : Nat) (hS : 1 ≤ S)
    (h : i < (n + S - 1) / S) : i * S < n := by
  have h1 : (i + 1) * S ≤ n + S - 1 :=
    (Nat.le_div_iff_mul_le (by omega : 0 < S)).mp h
  have h2 : (i + 1) * S = i * S + S := by ring
  omega

/-- A content object with no backing data, used as a concrete instance in
witnesses and counterexamples (the defaults of `NNTPContent.__init__`). -/
def baseContent : NNTPContent :=
  { filename := "file.bin", filepath := none, part := 1, total_parts := 1
  , sort_no := 10000, begin_ := 0, end_ := none, total_size := none
  , unique_ := none, detached := none, is_valid := false, isdir := false
  , dirty := false, payload := [] }

theorem mkSplitChild_eq (c : NNTPContent) (size : Int) (N i : Nat)
    (chunk : List Nat) :
    mkSplitChild c size N i chunk =
      { filename := c.filename, filepath := none, part := (i : Int) + 1
      , total_parts := (N : Int), sort_no := c.sort_no
      , begin_ := (i : Int) * size, end_ := none
      , total_size := some (c.payload.length : Int), unique_ := none
      , detached := some false, is_valid := false, isdir := false
      , dirty := false, payload := chunk } := rfl

/-- Helper: the `divmod`-based part count of `NNTPContent.split` equals the
ceiling of `n / S`. -/
theorem divmod_ceil (n S : Nat) (hS : 1 ≤ S) :
    n / S + (if n % S = 0 then 0 else 1) = (n + S - 1) / S := by
  have hd := Nat.div_add_mod n S
  have hlt := Nat.mod_lt n (by omega : 0 < S)
  rcases Nat.eq_zero_or_pos (n % S) with h | h
  · rw [if_pos h]
    rw [show n + S - 1 = (S - 1) + n / S * S by rw [Nat.mul_comm]; omega]
    rw [Nat.add_mul_div_right _ _ (show 0 < S by omega)]
    rw [Nat.div_eq_of_lt (show S - 1 < S by omega)]
    omega
  · rw [if_neg (by omega)]
    rw [show n + S - 1 = ((n % S - 1) + 1 * S) + n / S * S by
      rw [Nat.mul_comm (n / S) S]; omega]
    rw [Nat.add_mul_div_right _ _ (show 0 < S by omega)]
    rw [Nat.add_mul_div_right _ _ (show 0 < S by omega)]
    rw [Nat.div_eq_of_lt (show n % S - 1 < S by omega)]
    omega

/-- Helper: the value of `split` on the successful path. -/
theorem split_eq_of_pos (c : NNTPContent) (size mem_buf : Int)
    (hp0 : c.payload.length ≠ 0) (hs : 1 ≤ size) (hm : 1 ≤ mem_buf) :
    c.split size mem_buf = some ((chunksOf size.toNat c.payload).enum.map
      fun p => mkSplitChild c size
        (c.payload.length / size.toNat +
          if c.payload.length % size.toNat = 0 then 0 else 1) p.1 p.2) := by
  simp only [split, if_neg hp0, if_neg (by omega : ¬size ≤ 0),
    if_neg (by omega : ¬mem_buf ≤ 0)]

/-- Claim C10: splitting a Content of length 0 returns the error value
`None` regardless of the `size` and `mem_buf` arguments (the zero-length
check is the first thing `NNTPContent.split` does). -/
theorem split_of_empty_content_is_none (c : NNTPContent) (size mem_buf : Int)
    (h : c.payload.length = 0) : c.split size mem_buf = none := by
  simp [split, h]

/-- Witness for claim C10 at a concrete content with empty payload. -/
theorem split_of_empty_content_is_none_witness :
    baseContent.payload.length = 0 ∧ baseContent.split 7 (-3) = none :=
  ⟨rfl, split_of_empty_content_is_none baseContent 7 (-3) rfl⟩

/-- Claim C3: splitting a non-empty Content of length `len` with
`part_size = size ≥ 1` (and `mem_buf ≥ 1`) yields children whose 0-based
child `i` carries `part = i+1`, `begin = i*size`,
`end() = min((i+1)*size, len)`, `total_size = len`,
`total_parts = ⌈len/size⌉` and the parent's `sort_no`.  (`end` is the
value of the `end()` accessor: the constructor argument
`(part*size)+size` is reset to `None` by the first `write()`, after which
`end()` returns `begin + len(child)`.) -/
theorem split_child_fields (c : NNTPContent) (size mem_buf : Int)
    (hp : c.payload ≠ []) (hs : 1 ≤ size) (hm : 1 ≤ mem_buf) :
    ∃ cs, c.split size mem_buf = some cs ∧
      ∀ (i : Nat) (h : i < cs.length),
        cs[i].part = (i : Int) + 1 ∧
        cs[i].begin_ = (i : Int) * size ∧
        cs[i].endPtr = min (((i : Int) + 1) * size) (c.payload.length : Int) ∧
        cs[i].total_size = some (c.payload.length : Int) ∧
        cs[i].total_parts =
          (((c.payload.length + size.toNat - 1) / size.toNat : Nat) : Int) ∧
        cs[i].sort_no = c.sort_no := by
  have hp0 : c.payload.length ≠ 0 := by simpa using hp
  have hS1 : 1 ≤ size.toNat := by omega
  have hcast : ((size.toNat : Nat) : Int) = size := Int.toNat_of_nonneg (by omega)
  rw [split_eq_of_pos c size mem_buf hp0 hs hm]
  refine ⟨_, rfl, ?_⟩
  · intro i h
    simp only [List.length_map, List.enum_length] at h
    simp only [List.getElem_map, List.getElem_enum, mkSplitChild_eq]
    have hceil := chunksOf_length size.toNat hS1 c.payload
    have hin : i * size.toNat < c.payload.length :=
      lt_of_lt_chunk_count size.toNat c.payload.length i hS1 (hceil ▸ h)
    refine ⟨True.intro, True.intro, ?_, True.intro, ?_, True.intro⟩
    · have hlen : ((chunksOf size.toNat c.payload)[i]).length
          = min size.toNat (c.payload.length - i * size.toNat) := by
        rw [chunksOf_getElem size.toNat hS1 c.payload i h]
        simp [List.length_take, List.length_drop]
      show (i : Int) * size
          + (((chunksOf size.toNat c.payload)[i]).length : Int) = _
      rw [hlen]
      have hmin : ((min size.toNat (c.payload.length - i * size.toNat)
            : Nat) : Int)
          = min ((size.toNat : Nat) : Int)
              ((c.payload.length : Int) - (i : Int) * ((size.toNat : Nat) : Int)) := by
        rw [Nat.cast_min]
        congr 1
        rw [Nat.cast_sub (le_of_lt hin)]
        push_cast
        ring
      rw [hmin, hcast]
      have h2 : ((i : Int) + 1) * size = (i : Int) * size + size := by ring
      have h4 : (i : Int) * size < (c.payload.length : Int) := by
        rw [← hcast]
        exact_mod_cast hin
      omega
    · rw [divmod_ceil c.payload.length size.toNat hS1]

/-- Concrete content with three payload bytes, for witnesses. -/
def sample3 : NNTPContent := { baseContent with payload := [10, 20, 30] }

/-- Witness for claim C3: a 3-byte content split with `size = 2`. -/
theorem split_child_fields_witness :
    sample3.payload ≠ [] ∧ (1 : Int) ≤ 2 ∧ (1 : Int) ≤ 1 ∧
      (∃ cs, sample3.split 2 1 = some cs ∧
        ∀ (i : Nat) (h : i < cs.length),
          cs[i].part = (i : Int) + 1 ∧
          cs[i].begin_ = (i : Int) * 2 ∧
          cs[i].endPtr = min (((i : Int) + 1) * 2)
            (sample3.payload.length : Int) ∧
          cs[i].total_size = some (sample3.payload.length : Int) ∧
          cs[i].total_parts =
            (((sample3.payload.length + (2 : Int).toNat - 1)
              / (2 : Int).toNat : Nat) : Int) ∧
          cs[i].sort_no = sample3.sort_no) :=
  ⟨by decide, by decide, by decide,
    split_child_fields sample3 2 1 (by decide) (by decide) (by decide)⟩

/-- Counterexample to claim C4 as stated: for the empty Content,
`split` does not return a collection of `⌈0/S⌉ = 0` children; it returns
the error value `None`. -/
theorem split_count_concat_counterexample :
    baseContent.payload.length = 0 ∧ baseContent.split 2 2 = none :=
  ⟨rfl, rfl⟩

/-- The regex-free digit test `'0' ≤ c ≤ '9'` on a character. -/
def isDigitCh (c : Char) : Bool := 48 ≤ c.toNat && c.toNat ≤ 57

/-- Numeric value of a digit-character string, most significant first. -/
def chVal : List Char → Nat
  | [] => 0
  | c :: rest => (c.toNat - 48) * 10 ^ rest.length + chVal rest

theorem string_toList_append (s t : String) :
    (s ++ t).toList = s.toList ++ t.toList := rfl

theorem string_toList_empty : String.toList "" = [] := rfl

theorem string_toList_slash : String.toList "/" = ['/'] := rfl

theorem string_toList_mk (l : List Char) : (String.mk l).toList = l := rfl

theorem char_eq_of_toNat_eq (a b : Char) (h : a.toNat = b.toNat) : a = b :=
  Char.ext (UInt32.ext h)

theorem digitCh_toNat (d : Nat) (h : d < 10) : (digitCh d).toNat = 48 + d := by
  revert h
  revert d
  decide

theorem isDigitCh_digitCh (d : Nat) (h : d < 10) :
    isDigitCh (digitCh d) = true := by
  revert h
  revert d
  decide

/-- Lexicographic comparison ignores a common prefix. -/
theorem pyStrLt_append_common (a x y : List Char) :
    pyStrLt (a ++ x) (a ++ y) = pyStrLt x y := by
  induction a with
  | nil => rfl
  | cons c as ih =>
      simp only [List.cons_append, pyStrLt, eq_self_iff_true, if_true]
      exact ih

/-- Strict lexicographic comparison is asymmetric. -/
theorem pyStrLt_asymm (a : List Char) : ∀ b, pyStrLt a b = true →
    pyStrLt b a = false := by
  induction a with
  | nil =>
      intro b h
      cases b with
      | nil => simp [pyStrLt] at h
      | cons y ys => simp [pyStrLt]
  | cons x xs ih =>
      intro b h
      cases b with
      | nil => simp [pyStrLt] at h
      | cons y ys =>
          by_cases hxy : x = y
          · subst hxy
            simp only [pyStrLt, if_pos rfl] at h ⊢
            exact ih ys h
          · simp only [pyStrLt, if_neg hxy, decide_eq_true_eq] at h
            have hyx : ¬(y = x) := fun hc => hxy hc.symm
            simp only [pyStrLt, if_neg hyx, decide_eq_false_iff_not]
            intro hc
            have h1 : x.val.toNat < y.val.toNat := h
            have h2 : y.val.toNat < x.val.toNat := hc
            omega

theorem decDigits_congr (n : Nat) :
    ∀ f1 f2, n < f1 → n < f2 → decDigits f1 n = decDigits f2 n := by
  induction n using Nat.strong_induction_on with
  | _ n ih =>
      intro f1 f2 h1 h2
      match f1, f2 with
      | a + 1, b + 1 =>
          simp only [decDigits]
          rcases Nat.lt_or_ge n 10 with h | h
          · simp [h]
          · have hd : n / 10 < n := Nat.div_lt_self (by omega) (by omega)
            simp only [if_neg (by omega : ¬n < 10)]
            rw [ih (n / 10) hd a b (by omega) (by omega)]

/-- Unfolding equation for `decRepr` free of fuel. -/
theorem decRepr_eq (n : Nat) :
    decRepr n =
      if n < 10 then [digitCh n]
      else decRepr (n / 10) ++ [digitCh (n % 10)] := by
  show decDigits (n + 1) n = _
  simp only [decDigits]
  rcases Nat.lt_or_ge n 10 with h | h
  · simp [h]
  · have hd : n / 10 < n := Nat.div_lt_self (by omega) (by omega)
    simp only [if_neg (by omega : ¬n < 10)]
    rw [decDigits_congr (n / 10) n (n / 10 + 1) (by omega) (by omega)]
    rfl

theorem decRepr_all_digit (n : Nat) :
    ∀ c ∈ decRepr n, isDigitCh c = true := by
  induction n using Nat.strong_induction_on with
  | _ n ih =>
      intro c hc
      rw [decRepr_eq] at hc
      rcases Nat.lt_or_ge n 10 with h | h
      · rw [if_pos h] at hc
        simp only [List.mem_singleton] at hc
        subst hc
        exact isDigitCh_digitCh n h
      · rw [if_neg (by omega)] at hc
        rcases List.mem_append.mp hc with h1 | h1
        · exact ih (n / 10) (Nat.div_lt_self (by omega) (by omega)) c h1
        · simp only [List.mem_singleton] at h1
          subst h1
          exact isDigitCh_digitCh (n % 10) (Nat.mod_lt n (by omega))

/-- `'%d'` prints `n < 10^k` in at most `k` digits. -/
theorem decRepr_length_le (k : Nat) : ∀ n, n < 10 ^ k → 1 ≤ k →
    (decRepr n).length ≤ k := by
  induction k with
  | zero => intro n _ hk; omega
  | succ j ihk =>
      intro n hn _
      rw [decRepr_eq]
      rcases Nat.lt_or_ge n 10 with h | h
      · rw [if_pos h]
        simp
      · rw [if_neg (by omega)]
        have hj1 : 1 ≤ j := by
          by_contra hj
          have hj0 : j = 0 := by omega
          subst hj0
          simp at hn
          omega
        have hdiv : n / 10 < 10 ^ j := by
          rw [Nat.div_lt_iff_lt_mul (by omega : 0 < 10)]
          calc n < 10 ^ (j + 1) := hn
            _ = 10 ^ j * 10 := by rw [pow_succ]
        have := ihk (n / 10) hdiv hj1
        simp only [List.length_append, List.length_cons, List.length_nil]
        omega

theorem chVal_snoc (l : List Char) (c : Char) :
    chVal (l ++ [c]) = 10 * chVal l + (c.toNat - 48) := by
  induction l with
  | nil => simp [chVal]
  | cons x rest ih =>
      show (x.toNat - 48) * 10 ^ (rest ++ [c]).length + chVal (rest ++ [c])
          = 10 * ((x.toNat - 48) * 10 ^ rest.length + chVal rest)
            + (c.toNat - 48)
      rw [ih, List.length_append]
      rw [show List.length [c] = 1 from rfl, pow_succ]
      ring

/-- The digit string of `n` evaluates back to `n`. -/
theorem chVal_decRepr (n : Nat) : chVal (decRepr n) = n := by
  induction n using Nat.strong_induction_on with
  | _ n ih =>
      rw [decRepr_eq]
      rcases Nat.lt_or_ge n 10 with h | h
      · rw [if_pos h]
        simp only [chVal, List.length_nil, pow_zero, Nat.mul_one,
          Nat.add_zero]
        rw [digitCh_toNat n h]
        omega
      · rw [if_neg (by omega), chVal_snoc,
          ih (n / 10) (Nat.div_lt_self (by omega) (by omega)),
          digitCh_toNat (n % 10) (Nat.mod_lt n (by omega))]
        omega

theorem chVal_lt_pow (l : List Char) (h : ∀ c ∈ l, isDigitCh c = true) :
    chVal l < 10 ^ l.length := by
  induction l with
  | nil => simp [chVal]
  | cons c rest ih =>
      have hc := h c (List.mem_cons_self c rest)
      simp only [isDigitCh, Bool.and_eq_true, decide_eq_true_eq] at hc
      have hrest := ih (fun x hx => h x (List.mem_cons_of_mem c hx))
      simp only [chVal, List.length_cons]
      have h9 : c.toNat - 48 ≤ 9 := by omega
      have hmul : (c.toNat - 48) * 10 ^ rest.length ≤ 9 * 10 ^ rest.length :=
        Nat.mul_le_mul_right _ h9
      rw [pow_succ]
      omega

theorem chVal_replicate_zero (m : Nat) (l : List Char) :
    chVal (List.replicate m '0' ++ l) = chVal l := by
  induction m with
  | zero => rfl
  | succ j ih =>
      show chVal ('0' :: (List.replicate j '0' ++ l)) = chVal l
      simp only [chVal, ih]
      rw [show Char.toNat '0' - 48 = 0 from rfl, Nat.zero_mul, Nat.zero_add]

/-- On equal-length digit strings, lexicographic order is numeric
order. -/
theorem pyStrLt_digits : ∀ (l1 l2 : List Char), l1.length = l2.length →
    (∀ c ∈ l1, isDigitCh c = true) → (∀ c ∈ l2, isDigitCh c = true) →
    chVal l1 < chVal l2 → pyStrLt l1 l2 = true := by
  intro l1
  induction l1 with
  | nil =>
      intro l2 hlen _ _ hv
      cases l2 with
      | nil => simp [chVal] at hv
      | cons b bs => simp at hlen
  | cons a as ih =>
      intro l2 hlen h1 h2 hv
      cases l2 with
      | nil => simp at hlen
      | cons b bs =>
          have hlen' : as.length = bs.length := by
            simpa using hlen
          have ha := h1 a (List.mem_cons_self a as)
          have hb := h2 b (List.mem_cons_self b bs)
          simp only [isDigitCh, Bool.and_eq_true, decide_eq_true_eq] at ha hb
          by_cases hab : a = b
          · subst hab
            simp only [pyStrLt, if_pos rfl]
            refine ih bs hlen' (fun x hx => h1 x (List.mem_cons_of_mem a hx))
              (fun x hx => h2 x (List.mem_cons_of_mem a hx)) ?_
            simp only [chVal, hlen'] at hv
            omega
          · simp only [pyStrLt, if_neg hab, decide_eq_true_eq]
            have hva := chVal_lt_pow as
              (fun x hx => h1 x (List.mem_cons_of_mem a hx))
            have hvb := chVal_lt_pow bs
              (fun x hx => h2 x (List.mem_cons_of_mem b hx))
            simp only [chVal, hlen'] at hv
            rw [hlen'] at hva
            have htn : a.toNat < b.toNat := by
              by_contra hge
              rcases Nat.lt_or_ge b.toNat a.toNat with hlt | hge2
              · have hstep : (b.toNat - 48 + 1) * 10 ^ bs.length
                    ≤ (a.toNat - 48) * 10 ^ bs.length :=
                  Nat.mul_le_mul_right _ (by omega)
                rw [Nat.add_mul, Nat.one_mul] at hstep
                omega
              · exact hab (char_eq_of_toNat_eq a b (by omega))
            exact htn

/-- The `'%.5d'` string of a non-negative value, as a character list:
the digits padded with `'0'` to width 5 (no padding from 100000 up). -/
theorem fmt5_toList (p : Nat) :
    (fmt5 (p : Int)).toList
      = List.replicate (5 - (decRepr p).length) '0' ++ decRepr p := by
  have hneg : ¬((p : Int) < 0) := by omega
  simp only [fmt5, Int.natAbs_ofNat, string_toList_mk, if_neg hneg]
  by_cases hl : (decRepr p).length < 5
  · rw [if_pos hl]
  · rw [if_neg hl, show 5 - (decRepr p).length = 0 by omega,
      List.replicate_zero, List.nil_append]

/-- Below 100000, `'%.5d'` strings sort like the numbers they print. -/
theorem fmt5_lt (p q : Nat) (hpq : p < q) (hq : q < 100000) :
    pyStrLt (fmt5 (p : Int)).toList (fmt5 (q : Int)).toList = true := by
  have h5 : (10 : Nat) ^ 5 = 100000 := by norm_num
  have hlp : (decRepr p).length ≤ 5 :=
    decRepr_length_le 5 p (by omega) (by omega)
  have hlq : (decRepr q).length ≤ 5 :=
    decRepr_length_le 5 q (by omega) (by omega)
  rw [fmt5_toList p, fmt5_toList q]
  apply pyStrLt_digits
  · simp only [List.length_append, List.length_replicate]
    omega
  · intro c hc
    rcases List.mem_append.mp hc with h | h
    · rw [List.eq_of_mem_replicate h]
      decide
    · exact decRepr_all_digit p c h
  · intro c hc
    rcases List.mem_append.mp hc with h | h
    · rw [List.eq_of_mem_replicate h]
      decide
    · exact decRepr_all_digit q c h
  · rw [chVal_replicate_zero, chVal_replicate_zero, chVal_decRepr,
      chVal_decRepr]
    exact hpq

/-- The sort key of a split child: a common prefix (parent sort tier and
filename) followed by the `'%.5d'` part number. -/
theorem key_child_toList (c : NNTPContent) (size : Int) (tp i : Nat)
    (chunk : List Nat) :
    (key (mkSplitChild c size tp i chunk)).toList
      = (fmt5 c.sort_no).toList ++ (['/'] ++ (c.filename.toList
        ++ (['/'] ++ ((fmt5 ((i : Int) + 1)).toList ++ [])))) := by
  rw [show key (mkSplitChild c size tp i chunk)
      = (fmt5 c.sort_no ++ "/" ++ c.filename ++ "/" ++ fmt5 ((i : Int) + 1))
        ++ "" from rfl]
  simp only [string_toList_append, string_toList_empty, string_toList_slash,
    List.append_assoc]

/-- Children on lower part numbers sort strictly first, while all part
numbers stay below 100000. -/
theorem key_child_lt (c : NNTPContent) (size : Int) (tp : Nat)
    (i j : Nat) (chunk1 chunk2 : List Nat) (hij : i < j)
    (hj : j + 1 < 100000) :
    pyStrLt (key (mkSplitChild c size tp i chunk1)).toList
        (key (mkSplitChild c size tp j chunk2)).toList = true := by
  rw [key_child_toList, key_child_toList]
  simp only [pyStrLt_append_common, List.append_nil]
  rw [show ((i : Int) + 1) = ((i + 1 : Nat) : Int) by omega,
    show ((j : Int) + 1) = ((j + 1 : Nat) : Int) by omega]
  exact fmt5_lt (i + 1) (j + 1) (by omega) (by omega)

/-- Sorting by key is the identity on an already strictly key-sorted
list. -/
theorem sortByKey_of_sorted : ∀ l, keysSorted l = true → sortByKey l = l := by
  intro l
  induction l with
  | nil => intro _; rfl
  | cons x rest ih =>
      intro h
      cases rest with
      | nil => rfl
      | cons y rest2 =>
          simp only [keysSorted, Bool.and_eq_true] at h
          rw [sortByKey, ih h.2]
          simp only [insortByKey, pyStrLt_asymm _ _ h.1, Bool.false_eq_true,
            if_false]

/-- The children created by `split` come out strictly key-sorted while
every part number stays below 100000. -/
theorem keysSorted_children (c : NNTPContent) (size : Int) (tp : Nat) :
    ∀ (l : List (List Nat)) (n : Nat), n + l.length < 100000 →
      keysSorted ((List.enumFrom n l).map
        (fun p => mkSplitChild c size tp p.1 p.2)) = true := by
  intro l
  induction l with
  | nil => intro n _; rfl
  | cons x rest ih =>
      intro n hn
      cases rest with
      | nil => rfl
      | cons y rest2 =>
          show keysSorted (mkSplitChild c size tp n x
              :: mkSplitChild c size tp (n + 1) y
              :: (List.enumFrom (n + 2) rest2).map
                  (fun p => mkSplitChild c size tp p.1 p.2)) = true
          rw [keysSorted]
          simp only [Bool.and_eq_true]
          constructor
          · exact key_child_lt c size tp n (n + 1) x y (by omega)
              (by simp only [List.length_cons] at hn; omega)
          · have := ih (n + 1) (by
              simp only [List.length_cons] at hn ⊢
              omega)
            exact this

/-- Claim C4 (amended to non-empty Contents with fewer than 100000
parts): splitting a non-empty Content with `size ≥ 1` and `mem_buf ≥ 1`
returns exactly `⌈len/size⌉` children; while that count stays below
100000 the `sortedset`'s `key()` iteration order (`sortByKey`) coincides
with ascending part order, and concatenating the children's bytes in
that order reproduces the Content's bytes exactly.  (From part 100000 up
the `'%.5d'` key loses its zero padding and the key order leaves part
order, and a zero-length Content returns `None` instead of an empty
set.) -/
theorem split_count_and_concat (c : NNTPContent) (size mem_buf : Int)
    (hp : c.payload ≠ []) (hs : 1 ≤ size) (hm : 1 ≤ mem_buf)
    (hn : (c.payload.length + size.toNat - 1) / size.toNat < 100000) :
    ∃ cs, c.split size mem_buf = some cs ∧
      cs.length = (c.payload.length + size.toNat - 1) / size.toNat ∧
      sortByKey cs = cs ∧
      ((sortByKey cs).map NNTPContent.payload).flatten = c.payload := by
  have hp0 : c.payload.length ≠ 0 := by simpa using hp
  have hS1 : 1 ≤ size.toNat := by omega
  rw [split_eq_of_pos c size mem_buf hp0 hs hm]
  have hsorted : sortByKey ((chunksOf size.toNat c.payload).enum.map
      fun p => mkSplitChild c size
        (c.payload.length / size.toNat +
          if c.payload.length % size.toNat = 0 then 0 else 1) p.1 p.2)
      = (chunksOf size.toNat c.payload).enum.map
        fun p => mkSplitChild c size
          (c.payload.length / size.toNat +
            if c.payload.length % size.toNat = 0 then 0 else 1) p.1 p.2 := by
    apply sortByKey_of_sorted
    have hcl : (chunksOf size.toNat c.payload).length
        = (c.payload.length + size.toNat - 1) / size.toNat :=
      chunksOf_length size.toNat hS1 c.payload
    exact keysSorted_children c size _ (chunksOf size.toNat c.payload) 0
      (by omega)
  refine ⟨_, rfl, ?_, hsorted, ?_⟩
  · simp [chunksOf_length size.toNat hS1 c.payload]
  · rw [hsorted, List.map_map]
    have hmap : (NNTPContent.payload ∘ fun p =>
        mkSplitChild c size
          (c.payload.length / size.toNat +
            if c.payload.length % size.toNat = 0 then 0 else 1) p.1 p.2)
        = Prod.snd := rfl
    rw [hmap, List.enum_map_snd, chunksOf_flatten]

/-- Witness for claim C4 (amended) at a concrete 3-byte content split
into two parts. -/
theorem split_count_and_concat_witness :
    sample3.payload ≠ [] ∧ (1 : Int) ≤ 2 ∧ (1 : Int) ≤ 2 ∧
      (sample3.payload.length + (2 : Int).toNat - 1) / (2 : Int).toNat
        < 100000 ∧
      (∃ cs, sample3.split 2 2 = some cs ∧
        cs.length = (sample3.payload.length + (2 : Int).toNat - 1)
          / (2 : Int).toNat ∧
        sortByKey cs = cs ∧
        ((sortByKey cs).map NNTPContent.payload).flatten
          = sample3.payload) :=
  ⟨by decide, by decide, by decide, by decide,
    split_count_and_concat sample3 2 2 (by decide) (by decide) (by decide)
      (by decide)⟩

/-- Two concrete contents on different sort tiers (tier 1 sorts strictly
before tier 2 by the sort key). -/
def contentTierA : NNTPContent := { baseContent with sort_no := 1 }

/-- Companion to `contentTierA` on the higher tier. -/
def contentTierB : NNTPContent := { baseContent with sort_no := 2 }

/-- Claim C5: the source's `__lt__` compares `self.key()` with
`self.key()` and therefore returns `False` even when the left operand's
sort key is strictly smaller — the comparison never consults `other`.
This evaluates the code at the failing input: `contentTierA` sorts
strictly before `contentTierB` by key, yet `a < b` and `b < a` are both
`False`. -/
theorem lt_never_holds_despite_smaller_key :
    NNTPContent.lt contentTierA contentTierB = false ∧
    NNTPContent.lt contentTierB contentTierA = false ∧
    pyStrLt (key contentTierA).toList (key contentTierB).toList = true := by
  refine ⟨?_, ?_, ?_⟩ <;> decide

/-- A concrete attached content with a backing file, prior to a `load`. -/
def attachedContent : NNTPContent :=
  { baseContent with
      detached := some false,
      filepath := some "/tmp/backing.bin",
      is_valid := true,
      payload := [1, 2] }

/-- Counterexample to claim C6 as stated: calling `load` with a path that
names no existing file or directory does return `False`, but it mutates
the prior state: the previously attached backing file is passed to `rm`,
the object flips to detached, and the valid flag is cleared. -/
theorem load_missing_counterexample :
    (attachedContent.load "missing.bin" false false []).2.1 = false ∧
    (attachedContent.load "missing.bin" false false []).2.2
      = ["/tmp/backing.bin"] ∧
    (attachedContent.load "missing.bin" false false []).1.detached
      ≠ attachedContent.detached ∧
    (attachedContent.load "missing.bin" false false []).1.is_valid
      ≠ attachedContent.is_valid := by
  refine ⟨rfl, ?_, by decide, by decide⟩
  simp [load, attachedContent, baseContent]

/-- Claim C6 (amended): `load` with a path that names no existing file or
directory returns `False` and leaves the Content unbacked — any prior
attached backing file is removed (`rm`), the object becomes detached
(`_detached = True`), the valid and unique flags are reset, `filepath` is
cleared to `None` and `filename` to the empty string; part metadata
(`part`, `total_parts`, `sort_no`, offsets) is untouched. -/
theorem load_missing_path_resets (c : NNTPContent) (path : String)
    (bytes : List Nat) :
    c.load path false false bytes =
      ({ c with
          isdir := false, detached := some true, is_valid := false,
          unique_ := none, filepath := none, filename := "",
          payload := [] },
       false,
       if c.detached = some false ∧ c.filepath.isSome
         then [c.filepath.getD ""] else []) := rfl

/-- Counterexample to claim C7 as stated: `NNTPContent(part=0,
total_parts=2)` is accepted by the constructor (no exception), although it
violates `1 ≤ part`.  The only check performed is `total_parts < part`. -/
theorem init_accepts_part_zero :
    initPartTotal (some 0) (some 2) = some (0, 2) ∧ ¬((1 : Int) ≤ 0) :=
  ⟨rfl, by decide⟩

/-- Claim C7 (amended): every successfully constructed Content satisfies
`part ≤ total_parts`; both default to `1` (`total_parts` defaults to
`part`); and the constructor raises (`AttributeError`) for an explicit
`part`/`total_parts` pair exactly when `total_parts < part`.  Values of
`part` below `1` are accepted. -/
theorem init_part_total_validation :
    (∀ (po tp : Option Int) (q r : Int),
        initPartTotal po tp = some (q, r) → q ≤ r) ∧
    initPartTotal none none = some (1, 1) ∧
    (∀ p t : Int, initPartTotal (some p) (some t) = none ↔ t < p) := by
  refine ⟨?_, rfl, ?_⟩
  · intro po tp q r h
    match tp with
    | none =>
        simp only [initPartTotal, Option.some.injEq, Prod.mk.injEq] at h
        omega
    | some t =>
        simp only [initPartTotal] at h
        split at h
        · exact absurd h (by simp)
        · simp only [Option.some.injEq, Prod.mk.injEq] at h
          omega
  · intro p t
    simp only [initPartTotal, Option.getD]
    split <;> simp_all

/-- Witness for claim C7 (amended) at the concrete pair `part=2`,
`total_parts=5`. -/
theorem init_part_total_validation_witness :
    initPartTotal (some 2) (some 5) = some (2, 5) ∧ (2 : Int) ≤ 5 :=
  ⟨rfl, init_part_total_validation.1 (some 2) (some 5) 2 5 rfl⟩

end NNTPContent

/-- A Python value appearing as an element of a `groups` collection:
either a string or some non-string object (on which `.lower()` raises
`AttributeError`). -/
inductive PyElem where
  | strE (s : String)
  | otherE
  deriving Repr, DecidableEq

/-- Model of calling `.lower()` on a collection element inside
`NNTPArticle.__init__` (`[x.lower() for x in self.groups]`): ASCII
lower-casing for strings, `AttributeError` (modelled as `none`)
otherwise. -/
def PyElem.lower : PyElem → Option PyElem
  | PyElem.strE s => some (PyElem.strE s.toLower)
  | PyElem.otherE => none

/-- The possible shapes of the `groups` argument of
`NNTPArticle.__init__`: `None`, a string, a list, a tuple, a set, or a
truthy value of any other type. -/
inductive PyGroups where
  | noneV
  | strV (s : String)
  | listV (xs : List PyElem)
  | tupleV (xs : List PyElem)
  | setV (xs : List PyElem)
  | otherV

namespace NNTPGroup

/-- Character class of `GROUP_INVALID_CHAR_RE = [^A-Z0-9.-]` with
`re.I` (NNTPGroup.py line 21): the characters that survive
normalization. -/
def isGroupChar (c : Char) : Bool :=
  ('A' ≤ c && c ≤ 'Z') || ('a' ≤ c && c ≤ 'z') ||
  ('0' ≤ c && c ≤ '9') || c = '.' || c = '-'

/-- Model of `NNTPGroup.normalize` (NNTPGroup.py lines 44-72) on string
input: strip every character outside `[A-Za-z0-9.-]`, lower-case the
rest (ASCII), and return `None` when nothing remains. -/
def normalize (s : String) : Option String :=
  let t := String.mk ((s.toList.filter isGroupChar).map Char.toLower)
  if t = "" then none else some t

end NNTPGroup

namespace NNTPArticle

/-- Model of the comprehension `[x.lower() for x in groups]`: lower-cases
each element left to right, raising (`none`) at the first non-string. -/
def lowerAll : List PyElem → Option (List PyElem)
  | [] => some []
  | x :: xs =>
      match x.lower with
      | none => none
      | some y => (lowerAll xs).map (fun ys => y :: ys)

/-- Model of the `groups` handling of `NNTPArticle.__init__`
(NNTPArticle.py lines 95-106): a falsy value (None, empty string, empty
collection) gives the empty set; a non-empty string is wrapped in a
one-element set unchanged; a list or tuple is lower-cased element-wise
(raising `AttributeError`, modelled `none`, on a non-string element) and
collected into a set; a set is stored as-is; any other (truthy) type
raises `AttributeError`.  `NNTPGroup.normalize` is never called. -/
def initGroups : PyGroups → Option (Finset PyElem)
  | PyGroups.noneV => some ∅
  | PyGroups.strV s => if s = "" then some ∅ else some {PyElem.strE s}
  | PyGroups.listV xs =>
      if xs = [] then some ∅
      else (lowerAll xs).map List.toFinset
  | PyGroups.tupleV xs =>
      if xs = [] then some ∅
      else (lowerAll xs).map List.toFinset
  | PyGroups.setV xs => if xs = [] then some ∅ else some xs.toFinset
  | PyGroups.otherV => none

/-- Helper: `.lower()` mapped over a list of strings succeeds and
lower-cases each element. -/
theorem lowerAll_strings (ss : List String) :
    lowerAll (ss.map PyElem.strE)
      = some (ss.map (fun s => PyElem.strE s.toLower)) := by
  induction ss with
  | nil => rfl
  | cons s t ih => simp [lowerAll, ih, PyElem.lower]

/-- Helper: `.lower()` mapped over a list containing a non-string raises
(`none`). -/
theorem lowerAll_of_mem_other (xs : List PyElem)
    (h : PyElem.otherE ∈ xs) : lowerAll xs = none := by
  induction xs with
  | nil => cases h
  | cons x t ih =>
      rcases List.mem_cons.mp h with h1 | h1
      · rw [← h1]
        simp [lowerAll, PyElem.lower]
      · match x with
        | PyElem.otherE => simp [lowerAll, PyElem.lower]
        | PyElem.strE s => simp [lowerAll, PyElem.lower, ih h1]

/-- Counterexample to claim C9 as stated: an Article constructed with the
string `groups='ALT.Binaries.Test'` stores the string unchanged — it is
not lower-cased and not normalized (its `NNTPGroup.normalize` image is
`'alt.binaries.test'`, a different string).  `__init__` never invokes the
normalization function. -/
theorem groups_not_normalized_counterexample :
    initGroups (PyGroups.strV "ALT.Binaries.Test")
      = some {PyElem.strE "ALT.Binaries.Test"} ∧
    NNTPGroup.normalize "ALT.Binaries.Test" = some "alt.binaries.test" ∧
    ("ALT.Binaries.Test" : String) ≠ "alt.binaries.test" := by
  refine ⟨by decide, by decide, by decide⟩

/-- Claim C9 (amended): the `groups` attribute is always a set, built from
the argument as follows — a non-empty string becomes a one-element set
holding the string unchanged (no normalization); a list or tuple becomes
the set of its elements lower-cased (invalid characters are not
stripped), with duplicates collapsed, and a non-string element raises
`AttributeError`; a set argument is stored as-is (non-string members
included); a truthy argument of any other type raises `AttributeError`;
`NNTPGroup.normalize` is not applied anywhere in the constructor. -/
theorem init_groups_behavior :
    (∀ s : String, s ≠ "" →
      initGroups (PyGroups.strV s) = some {PyElem.strE s}) ∧
    (∀ ss : List String, ss ≠ [] →
      initGroups (PyGroups.listV (ss.map PyElem.strE))
        = some ((ss.map (fun s => PyElem.strE s.toLower)).toFinset)) ∧
    (∀ xs : List PyElem, xs ≠ [] → PyElem.otherE ∈ xs →
      initGroups (PyGroups.listV xs) = none) ∧
    (∀ xs : List PyElem, xs ≠ [] →
      initGroups (PyGroups.setV xs) = some xs.toFinset) ∧
    initGroups PyGroups.otherV = none := by
  refine ⟨?_, ?_, ?_, ?_, rfl⟩
  · intro s hs
    simp [initGroups, hs]
  · intro ss hss
    have hne : ss.map PyElem.strE ≠ [] := by
      simpa using hss
    simp [initGroups, hne, lowerAll_strings]
  · intro xs hxs hmem
    simp [initGroups, hxs, lowerAll_of_mem_other xs hmem]
  · intro xs hxs
    simp [initGroups, hxs]

/-- Witness for claim C9 (amended): the list case at a concrete two-string
list with a duplicate-after-lower-casing pair. -/
theorem init_groups_behavior_witness :
    (["ConVert.lead.2.gold", "convert.lead.2.gold"] : List String) ≠ [] ∧
    initGroups (PyGroups.listV
        (["ConVert.lead.2.gold", "convert.lead.2.gold"].map PyElem.strE))
      = some ((["ConVert.lead.2.gold", "convert.lead.2.gold"].map
          (fun s => PyElem.strE s.toLower)).toFinset) :=
  ⟨by decide, init_groups_behavior.2.1
    ["ConVert.lead.2.gold", "convert.lead.2.gold"] (by decide)⟩

end NNTPArticle


namespace CodecYenc

/-!
Model of `newsreap/codecs/CodecYenc.py` (the pure-python
`FAST_YENC_SUPPORT = False` code path).  Lines and strings on the wire
are byte lists (`List Nat`); all byte values are `< 256` where the claims
quantify over payloads.
-/

/-- The regex class `\s` of Python (`re`): space, tab, newline, carriage
return, vertical tab, form feed. -/
def isWS (c : Nat) : Bool :=
  c = 32 || c = 9 || c = 10 || c = 13 || c = 11 || c = 12

/-- The regex class `[0-9]`. -/
def isDigit (c : Nat) : Bool := 48 ≤ c && c ≤ 57

/-- The regex class `[A-Za-z0-9]` (values of `pcrc32=`/`crc32=`). -/
def isAlnum (c : Nat) : Bool :=
  isDigit c || (65 ≤ c && c ≤ 90) || (97 ≤ c && c ≤ 122)

/-- ASCII lower-casing of one byte (how `re.IGNORECASE` compares). -/
def byteLower (c : Nat) : Nat := if 65 ≤ c && c ≤ 90 then c + 32 else c

/-- `YENC_ENCODE_ESCAPED_CHARACTERS` (CodecYenc.py lines 145-159): the
already-translated byte values the manual encoder escapes — NUL, CR, LF,
`=`, space, tab and `.`. -/
def escapedEnc (e : Nat) : Bool :=
  e = 0 || e = 13 || e = 10 || e = 61 || e = 32 || e = 9 || e = 46

/-- The second bytes of the escape pairs of `YENC_DECODE_SPECIAL_MAP`
(CodecYenc.py lines 133-142): `(k + 64)` for `k` in the escaped set. -/
def escTail (c : Nat) : Bool :=
  c = 64 || c = 77 || c = 74 || c = 125 || c = 96 || c = 73 || c = 110

/-- The byte translation of the manual encoder (CodecYenc.py lines
324-336): each byte becomes `(b + 42) & 0xff`, and bytes landing in the
escaped set are emitted as `'='` followed by `(value + 64) & 0xff`. -/
def yencEscape : List Nat → List Nat
  | [] => []
  | b :: rest =>
      let e := (b + 42) % 256
      if escapedEnc e then 61 :: (e + 64) % 256 :: yencEscape rest
      else e :: yencEscape rest

/-- One application of `YENC_DECODE_SPECIAL_RE.sub` (CodecYenc.py lines
553-555): scanning left to right, an `'='` followed by a special tail is
replaced by `tail - 64` (the map sends `'=%s' % chr(k+64)` to `chr(k)`),
and bare `\r`/`\n` are deleted; everything else is copied. -/
def ydecSub : List Nat → List Nat
  | [] => []
  | c :: rest =>
      if c = 61 then
        match rest with
        | [] => [61]
        | d :: rest2 =>
            if escTail d then (d - 64) :: ydecSub rest2
            else 61 :: ydecSub (d :: rest2)
      else if c = 13 then ydecSub rest
      else if c = 10 then ydecSub rest
      else c :: ydecSub rest

/-- The `YENC42` translation table (CodecYenc.py line 131): every byte is
mapped to `(x - 42) & 255`. -/
def yTranslate (l : List Nat) : List Nat := l.map (fun c => (c + 214) % 256)

/-- Full decode of one payload line (sub, then translate), as in
CodecYenc.py lines 553-555. -/
def ydecLine (l : List Nat) : List Nat := yTranslate (ydecSub l)

/-- One bit-step of the reflected CRC-32 polynomial `0xEDB88320`. -/
def crcRound (c : Nat) : Nat :=
  if c % 2 = 1 then Nat.xor (c / 2) 0xEDB88320 else c / 2

/-- Iterated CRC bit-steps. -/
def crcRounds : Nat → Nat → Nat
  | 0, c => c
  | k + 1, c => crcRounds k (crcRound c)

/-- CRC-32 update by one byte. -/
def crcByte (c b : Nat) : Nat := crcRounds 8 (Nat.xor c b)

/-- Model of `zlib.crc32` over a byte string (with initial value 0), the
function used by `NNTPContent.crc32` (NNTPContent.py lines 1110-1130):
the standard CRC-32 with the reflected polynomial `0xEDB88320`,
pre/post-conditioned with `0xFFFFFFFF`.  `NNTPContent.crc32` folds it
over the file in chunks, which equals this byte-wise fold, and formats
the result with `format(crc & 0xffffffff, '08x')`. -/
def crc32 (data : List Nat) : Nat :=
  Nat.xor (data.foldl crcByte 0xFFFFFFFF) 0xFFFFFFFF

/-- Model of `CodecBase._calc_crc`.  Modelled from the spec:
`CodecBase.py` is not part of the sources; the spec says the decoder
keeps a rolling `crc` state and on each payload line must "update rolling
CRC32 with every decoded byte" — i.e. the `zlib.crc32(decoded, running)`
update. -/
def calcCrc (running : Nat) (bytes : List Nat) : Nat :=
  Nat.xor (bytes.foldl crcByte (Nat.xor running 0xFFFFFFFF)) 0xFFFFFFFF

/-- Decimal digit expansion (ASCII codes, most significant first) of a
natural number, i.e. Python `'%d' % n` for non-negative `n`; defined with
explicit fuel so that concrete instances reduce in the kernel. -/
def natDigitsAux : Nat → Nat → List Nat
  | 0, _ => []
  | fuel + 1, n =>
      if n < 10 then [48 + n]
      else natDigitsAux fuel (n / 10) ++ [48 + n % 10]

/-- Interface wrapper for `natDigitsAux` with always-sufficient fuel. -/
def natDigits (n : Nat) : List Nat := natDigitsAux (n + 1) n

/-- Integer value of a digit run, as `int()` computes it for `[0-9]+`
matches (CodecYenc.py lines 417-424). -/
def digitsVal (l : List Nat) : Nat :=
  l.foldl (fun a c => a * 10 + (c - 48)) 0

/-- One lowercase hex digit. -/
def hexChar (d : Nat) : Nat := if d < 10 then 48 + d else 87 + d

/-- Python `format(n & 0xffffffff, '08x')` for `n < 2^32`: exactly eight
lowercase hex digits. -/
def fmtHex8 (n : Nat) : List Nat :=
  [hexChar (n / 2 ^ 28 % 16), hexChar (n / 2 ^ 24 % 16),
   hexChar (n / 2 ^ 20 % 16), hexChar (n / 2 ^ 16 % 16),
   hexChar (n / 2 ^ 12 % 16), hexChar (n / 2 ^ 8 % 16),
   hexChar (n / 2 ^ 4 % 16), hexChar (n % 16)]

/-- Line-wrapping loop of the encoder (CodecYenc.py lines 338-357, plus
the final flush at lines 362-364): while at least `linelen` encoded
characters are buffered, emit a line of `linelen` characters — one fewer
if that line would end on the escape lead `'='` — and finally emit
whatever is left as a last, shorter line.  Fuel-indexed for kernel
reducibility; the chunked `mem_buf` reads of the source only change when
bytes enter the buffer, not the greedy line boundaries, so the emitted
lines are this function of the whole encoded character stream. -/
def wrapLinesF : Nat → Nat → List Nat → List (List Nat)
  | 0, _, s => [s]
  | fuel + 1, L, s =>
      if s.length < L then (if s.isEmpty then [] else [s])
      else
        let t := s.take L
        let line := if t.getLast? = some 61 then s.take (L - 1) else t
        line :: wrapLinesF fuel L (s.drop line.length)

/-- Interface wrapper for `wrapLinesF` with always-sufficient fuel. -/
def wrapLines (L : Nat) (s : List Nat) : List (List Nat) :=
  wrapLinesF (s.length + 1) L s

end CodecYenc

namespace CodecYenc

/-- ASCII bytes of `"part="`. -/
def kwPart : List Nat := [112, 97, 114, 116, 61]

/-- ASCII bytes of `"total="`. -/
def kwTotal : List Nat := [116, 111, 116, 97, 108, 61]

/-- ASCII bytes of `"line="`. -/
def kwLine : List Nat := [108, 105, 110, 101, 61]

/-- ASCII bytes of `"size="`. -/
def kwSize : List Nat := [115, 105, 122, 101, 61]

/-- ASCII bytes of `"name="`. -/
def kwName : List Nat := [110, 97, 109, 101, 61]

/-- ASCII bytes of `"begin="`. -/
def kwBegin : List Nat := [98, 101, 103, 105, 110, 61]

/-- ASCII bytes of `"end="`. -/
def kwEnd : List Nat := [101, 110, 100, 61]

/-- ASCII bytes of `"pcrc32="`. -/
def kwPcrc32 : List Nat := [112, 99, 114, 99, 51, 50, 61]

/-- ASCII bytes of `"crc32="`. -/
def kwCrc32 : List Nat := [99, 114, 99, 51, 50, 61]

/-- ASCII bytes of `"=ybegin"`. -/
def kwYbegin : List Nat := [61, 121, 98, 101, 103, 105, 110]

/-- ASCII bytes of `"=ypart"`. -/
def kwYpart : List Nat := [61, 121, 112, 97, 114, 116]

/-- ASCII bytes of `"=yend"`. -/
def kwYend : List Nat := [61, 121, 101, 110, 100]

/-- The keyword of a yEnc framing line (`key` in the match map, after
`YENC_KEY_MAP`): `begin`, `part` or `end`. -/
inductive YKey where
  | keyBegin
  | keyPart
  | keyEnd
  deriving Repr, DecidableEq

/-- The merged, key-mapped and int-converted match map `f_map` that
`CodecYenc.detect` returns (CodecYenc.py lines 390-426). -/
structure YMeta where
  key : YKey
  partN : Option Nat := none
  totalN : Option Nat := none
  lineN : Option Nat := none
  sizeN : Option Nat := none
  nameB : Option (List Nat) := none
  beginN : Option Nat := none
  endN : Option Nat := none
  pcrcS : Option (List Nat) := none
  crcS : Option (List Nat) := none
  deriving Repr, DecidableEq

/-- One optional attribute group `(\s+kw=VALUE)?` of `YENC_RE`: at least
one whitespace character, the (case-insensitive) keyword with its `=`,
then a non-empty greedy run of value characters.  Returns the value and
the rest of the line, or `none` if the group does not participate. -/
def parseAttr (kw : List Nat) (pred : Nat → Bool) (s : List Nat) :
    Option (List Nat × List Nat) :=
  if (s.takeWhile isWS).isEmpty then none
  else
    let r := s.dropWhile isWS
    if (r.take kw.length).map byteLower = kw then
      let after := r.drop kw.length
      let v := after.takeWhile pred
      if v.isEmpty then none else some (v, after.drop v.length)
    else none

/-- An optional numeric attribute: parse and convert with `int()`. -/
def tryAttrNum (kw : List Nat) (s : List Nat) : Option Nat × List Nat :=
  match parseAttr kw isDigit s with
  | some (v, rest) => (some (digitsVal v), rest)
  | none => (none, s)

/-- An optional alphanumeric attribute (`pcrc32`/`crc32` values stay
strings). -/
def tryAttrStr (kw : List Nat) (s : List Nat) :
    Option (List Nat) × List Nat :=
  match parseAttr kw isAlnum s with
  | some (v, rest) => (some v, rest)
  | none => (none, s)

/-- The character class `[\s\'"]` preceding the `name` capture. -/
def isNameJunk (c : Nat) : Bool := isWS c || c = 39 || c = 34

/-- Byte-list version of `os.path.basename`: the segment after the last
`/`. -/
def basenameBytes (l : List Nat) : List Nat :=
  (l.reverse.takeWhile (fun c => !(c = 47))).reverse

/-- Python `str.strip()`: remove leading and trailing whitespace. -/
def stripWS (l : List Nat) : List Nat :=
  ((l.dropWhile isWS).reverse.dropWhile isWS).reverse

/-- The `name` attribute group `(\s+name=[\s\'"]*(?P<name_1>.+)[\'"]*)?`:
the greedy junk prefix is skipped, then `.+` captures everything up to
the line's final `\n` (backtracking the junk star by one character when
the whole body is junk, so that `.+` still gets one character). -/
def tryAttrName (s : List Nat) : Option (List Nat) × List Nat :=
  if (s.takeWhile isWS).isEmpty then (none, s)
  else
    let r := s.dropWhile isWS
    if (r.take kwName.length).map byteLower = kwName then
      let after := r.drop kwName.length
      let body := after.takeWhile (fun c => !(c = 10))
      let tail := after.drop body.length
      if body.isEmpty then (none, s)
      else
        let nm := body.dropWhile isNameJunk
        (some (if nm.isEmpty then [body.getLastD 0] else nm), tail)
    else (none, s)

/-- `True` iff the rest of the line is consumed by the closing `\s*$`. -/
def allWS (s : List Nat) : Bool := s.all isWS

/-- Group 1 of `YENC_RE`: `part=`, `total=`, `line=`, `size=`, `name=`,
each optional, then `\s*$`. -/
def parseAlt1 (k : YKey) (s : List Nat) : Option YMeta :=
  let p1 := tryAttrNum kwPart s
  let p2 := tryAttrNum kwTotal p1.2
  let p3 := tryAttrNum kwLine p2.2
  let p4 := tryAttrNum kwSize p3.2
  let p5 := tryAttrName p4.2
  if allWS p5.2 then
    -- `f_map['name'] = basename(f_map['name']).strip()` (lines 399-400)
    some { key := k, partN := p1.1, totalN := p2.1, lineN := p3.1
         , sizeN := p4.1
         , nameB := p5.1.map (fun nm => stripWS (basenameBytes nm)) }
  else none

/-- Group 2 of `YENC_RE`: `size=`, `part=`, `pcrc32=`, `crc32=`, each
optional, then `\s*$`. -/
def parseAlt2 (k : YKey) (s : List Nat) : Option YMeta :=
  let p1 := tryAttrNum kwSize s
  let p2 := tryAttrNum kwPart p1.2
  let p3 := tryAttrStr kwPcrc32 p2.2
  let p4 := tryAttrStr kwCrc32 p3.2
  if allWS p4.2 then
    some { key := k, sizeN := p1.1, partN := p2.1, pcrcS := p3.1
         , crcS := p4.1 }
  else none

/-- Group 3 of `YENC_RE`: `begin=`, `end=`, each optional, then `\s*$`. -/
def parseAlt3 (k : YKey) (s : List Nat) : Option YMeta :=
  let p1 := tryAttrNum kwBegin s
  let p2 := tryAttrNum kwEnd p1.2
  if allWS p2.2 then
    some { key := k, beginN := p1.1, endN := p2.1 }
  else none

/-- Group 4 of `YENC_RE`: `size=`, `part=` (with a mandatory trailing
`\s+` inside the group), `pcrc32=`, `crc32=`, each optional, then
`\s*$`. -/
def parseAlt4 (k : YKey) (s : List Nat) : Option YMeta :=
  let p1 := tryAttrNum kwSize s
  let p2 :=
    match parseAttr kwPart isDigit p1.2 with
    | some (v, rest) =>
        if (rest.takeWhile isWS).isEmpty then ((none : Option Nat), p1.2)
        else (some (digitsVal v), rest.dropWhile isWS)
    | none => (none, p1.2)
  let p3 := tryAttrStr kwPcrc32 p2.2
  let p4 := tryAttrStr kwCrc32 p3.2
  if allWS p4.2 then
    some { key := k, sizeN := p1.1, partN := p2.1, pcrcS := p3.1
         , crcS := p4.1 }
  else none

/-- The four attribute alternatives of `YENC_RE`, tried left to right as
Python's regex engine does. -/
def runAlts (k : YKey) (r : List Nat) : Option YMeta :=
  match parseAlt1 k r with
  | some m => some m
  | none =>
      match parseAlt2 k r with
      | some m => some m
      | none =>
          match parseAlt3 k r with
          | some m => some m
          | none => parseAlt4 k r

/-- The optional `2` after the keyword (`=y(begin|part|end)2?`), then the
attribute alternatives. -/
def detectTail (k : YKey) (r0 : List Nat) : Option YMeta :=
  runAlts k (if r0.take 1 = [50] then r0.drop 1 else r0)

/-- Model of `CodecYenc.detect(line, relative=False)` (CodecYenc.py lines
376-426 and the regex `YENC_RE` at lines 40-61): leading whitespace, the
case-insensitive keyword head `=y(begin|part|end)2?` (checked on the
lower-cased line; the keyword matches iff it is the prefix of the
remaining line), then the first of the four attribute alternatives that
consumes the rest of the line, merged through `YENC_KEY_MAP` with
integers converted. -/
def detect (line : List Nat) : Option YMeta :=
  let t := line.dropWhile isWS
  let tl := t.map byteLower
  if tl.take kwYbegin.length = kwYbegin then
    detectTail YKey.keyBegin (t.drop kwYbegin.length)
  else if tl.take kwYpart.length = kwYpart then
    detectTail YKey.keyPart (t.drop kwYpart.length)
  else if tl.take kwYend.length = kwYend then
    detectTail YKey.keyEnd (t.drop kwYend.length)
  else none

end CodecYenc

namespace CodecYenc

/-- The `EOL = '\r\n'` delimiter (CodecYenc.py line 37). -/
def EOL : List Nat := [13, 10]

/-- The `fmt_ybegin` header (CodecYenc.py lines 246-249):
`'=ybegin part=%d total=%d line=%d size=%d name=%s'`. -/
def ybeginLine (part total L size : Nat) (name : List Nat) : List Nat :=
  kwYbegin ++ [32] ++ kwPart ++ natDigits part
    ++ [32] ++ kwTotal ++ natDigits total
    ++ [32] ++ kwLine ++ natDigits L
    ++ [32] ++ kwSize ++ natDigits size
    ++ [32] ++ kwName ++ name

/-- The `fmt_ypart` header (CodecYenc.py lines 252-255):
`'=ypart begin=%d end=%d'` with `begin = content.begin() + 1` and
`end = content.end()`. -/
def ypartLine (b e : Nat) : List Nat :=
  kwYpart ++ [32] ++ kwBegin ++ natDigits b ++ [32] ++ kwEnd ++ natDigits e

/-- The `fmt_yend` footer (CodecYenc.py lines 257-268):
`'=yend size=%d part=%d pcrc32=%s'`, with ` crc32=%s` appended when the
content has a parent back-reference. -/
def yendLine (size part pcrc : Nat) (parentCrc : Option Nat) : List Nat :=
  kwYend ++ [32] ++ kwSize ++ natDigits size
    ++ [32] ++ kwPart ++ natDigits part
    ++ [32] ++ kwPcrc32 ++ fmtHex8 pcrc
    ++ (match parentCrc with
        | some w => [32] ++ kwCrc32 ++ fmtHex8 w
        | none => [])

/-- Model of `CodecYenc.encode(content)` (CodecYenc.py lines 211-374),
pure-python path, as a function of the input content's fields: the
`=ybegin` and `=ypart` headers, the escape-encoded payload wrapped into
lines of at most `linelen` characters (each with `EOL`), and the `=yend`
footer carrying this part's CRC-32 and, when the content has a parent,
the parent's whole-file CRC-32. -/
def encode (L part total : Nat) (name : List Nat) (beginOff endOff : Nat)
    (payload : List Nat) (parentCrc : Option Nat) : List Nat :=
  ybeginLine part total L payload.length name ++ EOL
    ++ ypartLine (beginOff + 1) endOff ++ EOL
    ++ ((wrapLines L (yencEscape payload)).map (fun l => l ++ EOL)).flatten
    ++ yendLine payload.length part (crc32 payload) parentCrc ++ EOL

/-- Model of `NNTPBinaryContent` as the decoder uses it: an attached
binary content with a filename, part number, accumulated decoded bytes
and the `_is_valid` flag.  (`NNTPBinaryContent.py` itself is not among
the sources; per the spec it is the binary `NNTPContent` subclass, and
the decoder only constructs it, assigns `part`, writes bytes and sets
`_is_valid`.) -/
structure BinContent where
  filename : List Nat
  part : Nat
  data : List Nat
  valid : Bool
  deriving Repr, DecidableEq

/-- The decoder state that `CodecYenc` carries across `decode()` calls:
`self._meta` keyword membership (only membership of `begin`/`part`/`end`
is ever queried), `self._part`, `self.decoded`, and the `CodecBase`
counters `self._crc`, `self._total_lines`, `self._lines`,
`self._decoded`, `self._max_bytes`. -/
structure DecState where
  metaBegin : Bool
  metaPart : Bool
  metaEnd : Bool
  part : Nat
  decoded : Option BinContent
  crc : Nat
  totalLines : Nat
  lines : Nat
  decodedBytes : Nat
  maxBytes : Nat
  deriving Repr, DecidableEq

/-- The state of a fresh codec (`reset()`, CodecYenc.py lines 591-606;
counters zero, no cap).  Modelled from the spec: `CodecBase.__init__`
is not among the sources; the spec lists the decoder state as `meta`
empty, `part_no`, rolling `crc`, line/byte counters and an optional
`max_bytes` cap, all starting empty/zero. -/
def freshState : DecState :=
  { metaBegin := false, metaPart := false, metaEnd := false, part := 1
  , decoded := none, crc := 0, totalLines := 0, lines := 0
  , decodedBytes := 0, maxBytes := 0 }

/-- `stream.readline()`: the bytes up to and including the next `\n` (or
up to EOF), plus the remaining stream. -/
def readLine : List Nat → List Nat × List Nat
  | [] => ([], [])
  | c :: rest =>
      if c = 10 then ([c], rest)
      else
        let p := readLine rest
        (c :: p.1, p.2)

/-- `_meta['key'] in self._meta` for the stored keyword flags. -/
def keyIn (st : DecState) : YKey → Bool
  | YKey.keyBegin => st.metaBegin
  | YKey.keyPart => st.metaPart
  | YKey.keyEnd => st.metaEnd

/-- `self._meta[_meta['key']] = _meta` (only membership is observable). -/
def setKey (st : DecState) : YKey → DecState
  | YKey.keyBegin => { st with metaBegin := true }
  | YKey.keyPart => { st with metaPart := true }
  | YKey.keyEnd => { st with metaEnd := true }

/-- The possible outcomes of the decode loop: `again` models the
`return True` taken at EOF (state kept for a further call); `done`
models `break` (with the stream contents still unread — the duplicate
keyword branch rewinds to the line start, the `max_bytes` branch seeks
to EOF); `crash` models the unguarded `AttributeError` paths where
`self.decoded` is `None` but gets written to; `fuelOut` is the fuel
sentinel, unreachable for fuel exceeding the stream length. -/
inductive DecOutcome where
  | again (st : DecState)
  | done (st : DecState) (remaining : List Nat)
  | crash
  | fuelOut
  deriving Repr, DecidableEq

/-- The body of `CodecYenc.decode`'s `while self.decode_loop():` loop
(CodecYenc.py lines 435-576), transcribed branch for branch; one unit of
fuel is one loop iteration (each iteration consumes at least one byte of
the stream, so `stream.length + 1` fuel always suffices).
`decode_loop()` itself is not among the sources (CodecBase.py); modelled
from the spec as always continuing until `break`/`return`. -/
def decodeLoopF : Nat → DecState → List Nat → DecOutcome
  | 0, _, _ => DecOutcome.fuelOut
  | fuel + 1, st, stream =>
      if stream.isEmpty then DecOutcome.again st
      else
        let pr := readLine stream
        let st1 := { st with totalLines := st.totalLines + 1 }
        match detect pr.1 with
        | some m =>
            if keyIn st1 m.key then
              -- duplicate keyword: rewind to the line start and stop
              DecOutcome.done { st1 with totalLines := st1.totalLines - 1 }
                stream
            else if m.key = YKey.keyEnd && !st1.metaBegin && !st1.metaPart
            then
              -- `end` before any `begin`/`part`: ignore and keep going
              decodeLoopF fuel st1 pr.2
            else
              let st2 := setKey st1 m.key
              match m.key with
              | YKey.keyEnd =>
                  match st2.decoded with
                  | none => DecOutcome.crash
                  | some d =>
                      DecOutcome.done
                        { st2 with decoded := some { d with valid := true } }
                        pr.2
              | YKey.keyBegin =>
                  match m.nameB with
                  | none => decodeLoopF fuel st2 pr.2
                  | some nm =>
                      let p := m.partN.getD 1
                      decodeLoopF fuel
                        { st2 with part := p
                                 , decoded := some { filename := nm, part := p
                                                   , data := [], valid := false } }
                        pr.2
              | YKey.keyPart =>
                  if !st2.metaBegin then decodeLoopF fuel st2 pr.2
                  else
                    let p := m.partN.getD st2.part
                    match st2.decoded with
                    | none => DecOutcome.crash
                    | some d =>
                        decodeLoopF fuel
                          { st2 with part := p
                                   , decoded := some { d with part := p } }
                          pr.2
        | none =>
            if !st1.metaBegin && !st1.metaPart then
              decodeLoopF fuel st1 pr.2
            else
              let dec := ydecLine pr.1
              let st2 := { st1 with crc := calcCrc st1.crc dec
                                  , lines := st1.lines + 1
                                  , decodedBytes := st1.decodedBytes + dec.length }
              match st2.decoded with
              | none => DecOutcome.crash
              | some d =>
                  let st3 :=
                    { st2 with decoded := some { d with data := d.data ++ dec } }
                  if st3.maxBytes > 0 && st3.decodedBytes ≥ st3.maxBytes then
                    DecOutcome.done st3 []
                  else decodeLoopF fuel st3 pr.2

/-- The result of one `CodecYenc.decode(stream)` call: either the
mid-stream `return True` (`moreData`, state kept), or the post-loop path
(`finished`: `self._meta` and `self._part` are reset, the decoded
content closed and returned), or an unguarded `AttributeError`. -/
inductive DecodeResult where
  | moreData (st : DecState)
  | finished (result : Option BinContent) (st : DecState)
      (remaining : List Nat)
  | crash
  | fuelOut
  deriving Repr, DecidableEq

/-- Model of `CodecYenc.decode(stream)` (CodecYenc.py lines 428-589). -/
def decode (st : DecState) (stream : List Nat) : DecodeResult :=
  match decodeLoopF (stream.length + 1) st stream with
  | DecOutcome.again st1 => DecodeResult.moreData st1
  | DecOutcome.crash => DecodeResult.crash
  | DecOutcome.fuelOut => DecodeResult.fuelOut
  | DecOutcome.done st1 rem =>
      DecodeResult.finished st1.decoded
        { st1 with metaBegin := false, metaPart := false, metaEnd := false
                 , part := 1 }
        rem

/-- Projection used by concrete evaluations: the Content a finished
`decode` call returns. -/
def decodeResultContent : DecodeResult → Option BinContent
  | DecodeResult.finished r _ _ => r
  | _ => none

end CodecYenc

namespace CodecYenc

/-- Claim C1, evaluated at the failing input: the stream
`=ybegin part=1 total=1 line=128 size=1 name=a` / `~` /
`=yend size=1 part=1 pcrc32=00000000` decodes the single byte `84`,
whose CRC-32 (`0xbe04e4e0`) does not match the footer's
`pcrc32=00000000` — yet the decoder marks the Content valid: on `=yend`
it runs `self.decoded._is_valid = True` unconditionally and never
compares `pcrc32` (parsed into `_meta` but unused) against the rolling
`self._crc`. -/
theorem decode_valid_despite_crc_mismatch :
    decodeResultContent (decode freshState
        (ybeginLine 1 1 128 1 [97] ++ EOL ++ [126] ++ EOL
          ++ yendLine 1 1 0 none ++ EOL))
      = some { filename := [97], part := 1, data := [84], valid := true } ∧
    fmtHex8 (crc32 [84]) ≠ fmtHex8 0 :=
  ⟨by decide, by decide⟩

/-- Claim C8: when an `=yend` keyword line is read while neither `begin`
nor `part` has been seen, the decode loop ignores the line (no state
change other than the line counter) and continues with the rest of the
stream — no error is surfaced. -/
theorem end_before_begin_is_ignored (fuel : Nat) (st : DecState)
    (stream rest : List Nat) (m : YMeta)
    (hne : stream.isEmpty = false)
    (hdet : detect (readLine stream).1 = some m)
    (hkey : m.key = YKey.keyEnd)
    (hb : st.metaBegin = false) (hp : st.metaPart = false)
    (he : st.metaEnd = false)
    (hrest : (readLine stream).2 = rest) :
    decodeLoopF (fuel + 1) st stream
      = decodeLoopF fuel { st with totalLines := st.totalLines + 1 } rest := by
  simp only [decodeLoopF, hne, hdet, hkey, hrest, Bool.false_eq_true,
    if_false, keyIn, Bool.not_false, Bool.and_self]
  have h1 : keyIn { st with totalLines := st.totalLines + 1 } YKey.keyEnd
      = false := by simp [keyIn, he]
  simp only [keyIn] at h1
  simp only [h1, Bool.false_eq_true, if_false, hb, hp, Bool.not_false,
    Bool.and_self, if_true, decide_True, Bool.true_and, Bool.and_true]

end CodecYenc

namespace CodecYenc

/-- The concrete stream `=yend size=0 part=1 pcrc32=00000000\r\n` used to
witness claim C8. -/
def earlyEndStream : List Nat := yendLine 0 1 0 none ++ EOL

/-- The match map `detect` produces for the single line of
`earlyEndStream`. -/
def earlyEndMeta : YMeta :=
  { key := YKey.keyEnd, sizeN := some 0, partN := some 1
  , pcrcS := some (fmtHex8 0) }

/-- Witness for claim C8 at the fresh decoder state and the concrete
out-of-order `=yend` stream. -/
theorem end_before_begin_is_ignored_witness :
    (earlyEndStream.isEmpty = false ∧
     detect (readLine earlyEndStream).1 = some earlyEndMeta ∧
     earlyEndMeta.key = YKey.keyEnd ∧
     freshState.metaBegin = false ∧ freshState.metaPart = false ∧
     freshState.metaEnd = false ∧ (readLine earlyEndStream).2 = []) ∧
    decodeLoopF 5 freshState earlyEndStream
      = decodeLoopF 4
          { freshState with totalLines := freshState.totalLines + 1 } [] :=
  ⟨⟨by decide, by decide, rfl, rfl, rfl, rfl, by decide⟩,
   end_before_begin_is_ignored 4 freshState earlyEndStream [] earlyEndMeta
     (by decide) (by decide) rfl rfl rfl rfl (by decide)⟩

end CodecYenc

namespace CodecYenc

/-- The head of the list fails predicate `p` (or the list is empty) —
where a greedy `takeWhile` run must stop. -/
def headNotSat (p : Nat → Bool) : List Nat → Prop
  | [] => True
  | t :: _ => p t = false

theorem takeWhile_append_all (p : Nat → Bool) (v tail : List Nat)
    (hv : ∀ x ∈ v, p x = true) (ht : headNotSat p tail) :
    (v ++ tail).takeWhile p = v ∧ (v ++ tail).dropWhile p = tail := by
  induction v with
  | nil =>
      refine ⟨?_, ?_⟩ <;>
        (cases tail with
         | nil => rfl
         | cons t ts =>
             simp only [List.nil_append, List.takeWhile_cons,
               List.dropWhile_cons, show p t = false from ht,
               Bool.false_eq_true, if_false])
  | cons a v ih =>
      have ha : p a = true := hv a (List.mem_cons_self a v)
      have ihr := ih (fun x hx => hv x (List.mem_cons_of_mem a hx))
      refine ⟨?_, ?_⟩ <;>
        simp only [List.cons_append, List.takeWhile_cons,
          List.dropWhile_cons, ha, if_true, ihr.1, ihr.2]

theorem natDigitsAux_congr (n : Nat) :
    ∀ f1 f2, n < f1 → n < f2 → natDigitsAux f1 n = natDigitsAux f2 n := by
  induction n using Nat.strong_induction_on with
  | _ n ih =>
      intro f1 f2 h1 h2
      match f1, f2 with
      | a + 1, b + 1 =>
          simp only [natDigitsAux]
          rcases Nat.lt_or_ge n 10 with h | h
          · simp [h]
          · have hd : n / 10 < n := Nat.div_lt_self (by omega) (by omega)
            simp only [if_neg (by omega : ¬n < 10)]
            rw [ih (n / 10) hd a b (by omega) (by omega)]

/-- Unfolding equation for `natDigits` free of fuel. -/
theorem natDigits_eq (n : Nat) :
    natDigits n =
      if n < 10 then [48 + n] else natDigits (n / 10) ++ [48 + n % 10] := by
  show natDigitsAux (n + 1) n = _
  simp only [natDigitsAux]
  rcases Nat.lt_or_ge n 10 with h | h
  · simp [h]
  · have hd : n / 10 < n := Nat.div_lt_self (by omega) (by omega)
    simp only [if_neg (by omega : ¬n < 10)]
    rw [natDigitsAux_congr (n / 10) n (n / 10 + 1) (by omega) (by omega)]
    rfl

theorem natDigits_ne_nil (n : Nat) : natDigits n ≠ [] := by
  rw [natDigits_eq]
  rcases Nat.lt_or_ge n 10 with h | h
  · simp [h]
  · simp [show ¬n < 10 by omega]

theorem natDigits_all_digit (n : Nat) :
    ∀ c ∈ natDigits n, isDigit c = true := by
  induction n using Nat.strong_induction_on with
  | _ n ih =>
      intro c hc
      rw [natDigits_eq] at hc
      rcases Nat.lt_or_ge n 10 with h | h
      · rw [if_pos h] at hc
        simp only [List.mem_singleton] at hc
        subst hc
        simp only [isDigit]
        have : n ≤ 9 := by omega
        simp only [Bool.and_eq_true, decide_eq_true_eq]
        omega
      · rw [if_neg (by omega)] at hc
        rcases List.mem_append.mp hc with h1 | h1
        · exact ih (n / 10) (Nat.div_lt_self (by omega) (by omega)) c h1
        · simp only [List.mem_singleton] at h1
          subst h1
          have : n % 10 < 10 := Nat.mod_lt n (by omega)
          simp only [isDigit, Bool.and_eq_true, decide_eq_true_eq]
          omega

theorem digitsVal_go (n : Nat) :
    ∀ a : Nat, (natDigits n).foldl (fun a c => a * 10 + (c - 48)) a
      = a * 10 ^ (natDigits n).length + n := by
  induction n using Nat.strong_induction_on with
  | _ n ih =>
      intro a
      rw [natDigits_eq]
      rcases Nat.lt_or_ge n 10 with h | h
      · simp only [if_pos h, List.foldl_cons, List.foldl_nil,
          List.length_singleton, pow_one]
        omega
      · have hd : n / 10 < n := Nat.div_lt_self (by omega) (by omega)
        simp only [if_neg (by omega : ¬n < 10), List.foldl_append,
          List.foldl_cons, List.foldl_nil, List.length_append,
          List.length_singleton]
        rw [ih (n / 10) hd a]
        have hmod := Nat.div_add_mod n 10
        have hpow : 10 ^ ((natDigits (n / 10)).length + 1)
            = 10 ^ (natDigits (n / 10)).length * 10 := by ring
        have h48 : 48 + n % 10 - 48 = n % 10 := by omega
        rw [hpow, h48]
        have h10 : 10 * (n / 10) = n / 10 * 10 := Nat.mul_comm _ _
        have hexp : a * (10 ^ (natDigits (n / 10)).length * 10)
            = a * 10 ^ (natDigits (n / 10)).length * 10 := by ring
        omega

theorem digitsVal_natDigits (n : Nat) : digitsVal (natDigits n) = n := by
  show (natDigits n).foldl _ 0 = n
  rw [digitsVal_go n 0]
  simp

end CodecYenc


namespace CodecYenc

theorem parseAttr_miss (kw : List Nat) (pred : Nat → Bool) (s : List Nat)
    (h : ((s.dropWhile isWS).take kw.length).map byteLower ≠ kw) :
    parseAttr kw pred s = none := by
  unfold parseAttr
  rw [if_neg h]
  split <;> rfl

theorem parseAttr_hit (k0 : Nat) (kr : List Nat) (pred : Nat → Bool)
    (v tail : List Nat)
    (hlow : (k0 :: kr).map byteLower = k0 :: kr)
    (hk0 : isWS k0 = false)
    (hv : ∀ x ∈ v, pred x = true) (hvne : v ≠ [])
    (ht : headNotSat pred tail) :
    parseAttr (k0 :: kr) pred (32 :: ((k0 :: kr) ++ (v ++ tail)))
      = some (v, tail) := by
  have htw := takeWhile_append_all pred v tail hv ht
  have h1 : (((32 : Nat) :: ((k0 :: kr) ++ (v ++ tail))).takeWhile
      isWS).isEmpty = false := by
    simp [List.takeWhile_cons, show isWS 32 = true from rfl]
  have h2 : ((32 : Nat) :: ((k0 :: kr) ++ (v ++ tail))).dropWhile isWS
      = (k0 :: kr) ++ (v ++ tail) := by
    rw [List.dropWhile_cons]
    simp only [show isWS 32 = true from rfl, if_true]
    rw [List.cons_append, List.dropWhile_cons]
    simp only [hk0, Bool.false_eq_true, if_false, List.cons_append]
  have h3 : v.isEmpty = false := by
    cases v with
    | nil => exact absurd rfl hvne
    | cons a t => rfl
  unfold parseAttr
  rw [h1, h2]
  simp only [Bool.false_eq_true, if_false]
  rw [List.take_left, List.drop_left, hlow, htw.1, h3]
  simp [List.drop_left]

end CodecYenc

namespace CodecYenc

theorem tryAttrNum_hit (k0 : Nat) (kr : List Nat) (n : Nat)
    (tail : List Nat)
    (hlow : (k0 :: kr).map byteLower = k0 :: kr)
    (hk0 : isWS k0 = false)
    (ht : headNotSat isDigit tail) :
    tryAttrNum (k0 :: kr) (32 :: ((k0 :: kr) ++ (natDigits n ++ tail)))
      = (some n, tail) := by
  simp only [tryAttrNum,
    parseAttr_hit k0 kr isDigit (natDigits n) tail hlow hk0
      (natDigits_all_digit n) (natDigits_ne_nil n) ht,
    digitsVal_natDigits]

theorem tryAttrNum_miss (kw : List Nat) (s : List Nat)
    (h : ((s.dropWhile isWS).take kw.length).map byteLower ≠ kw) :
    tryAttrNum kw s = (none, s) := by
  simp only [tryAttrNum, parseAttr_miss kw isDigit s h]

theorem tryAttrStr_hit (k0 : Nat) (kr : List Nat) (v tail : List Nat)
    (hlow : (k0 :: kr).map byteLower = k0 :: kr)
    (hk0 : isWS k0 = false)
    (hv : ∀ x ∈ v, isAlnum x = true) (hvne : v ≠ [])
    (ht : headNotSat isAlnum tail) :
    tryAttrStr (k0 :: kr) (32 :: ((k0 :: kr) ++ (v ++ tail)))
      = (some v, tail) := by
  simp only [tryAttrStr,
    parseAttr_hit k0 kr isAlnum v tail hlow hk0 hv hvne ht]

theorem tryAttrStr_miss (kw : List Nat) (s : List Nat)
    (h : ((s.dropWhile isWS).take kw.length).map byteLower ≠ kw) :
    tryAttrStr kw s = (none, s) := by
  simp only [tryAttrStr, parseAttr_miss kw isAlnum s h]

theorem tryAttrName_miss (s : List Nat)
    (h : ((s.dropWhile isWS).take kwName.length).map byteLower ≠ kwName) :
    tryAttrName s = (none, s) := by
  unfold tryAttrName
  rw [if_neg h]
  split <;> rfl

/-- The value the `name_1` capture takes on an encoder-emitted
`=ybegin ... name=NAME\r\n` line: the body is `NAME ++ '\r'`. -/
def nameCapture (name : List Nat) : List Nat :=
  if ((name ++ [13]).dropWhile isNameJunk).isEmpty then
    [(name ++ [13]).getLastD 0]
  else (name ++ [13]).dropWhile isNameJunk

theorem tryAttrName_hit (name : List Nat) (h10 : 10 ∉ name) :
    tryAttrName (32 :: (kwName ++ (name ++ [13, 10])))
      = (some (nameCapture name), [10]) := by
  have hv : ∀ x ∈ name ++ [13], (fun c => !(c = 10)) x = true := by
    intro x hx
    rcases List.mem_append.mp hx with h1 | h1
    · simp only [Bool.not_eq_eq_eq_not, Bool.not_true, decide_eq_false_iff_not]
      intro hx10
      exact h10 (hx10 ▸ h1)
    · simp only [List.mem_singleton] at h1
      subst h1
      decide
  have htw := takeWhile_append_all (fun c => !(c = 10)) (name ++ [13]) [10]
    hv (by simp [headNotSat])
  have hassoc : name ++ [13, 10] = (name ++ [13]) ++ [10] := by
    simp [List.append_assoc]
  have h1 : (((32 : Nat) :: (kwName ++ (name ++ [13, 10]))).takeWhile
      isWS).isEmpty = false := by
    simp [List.takeWhile_cons, show isWS 32 = true from rfl]
  have h2 : ((32 : Nat) :: (kwName ++ (name ++ [13, 10]))).dropWhile isWS
      = kwName ++ (name ++ [13, 10]) := by
    rw [List.dropWhile_cons]
    simp only [show isWS 32 = true from rfl, if_true, kwName,
      List.cons_append, List.dropWhile_cons]
    simp only [show isWS 110 = false from rfl, Bool.false_eq_true, if_false]
  have hne : (name ++ [13]).isEmpty = false := by
    cases name <;> rfl
  unfold tryAttrName
  rw [h1, h2]
  simp only [Bool.false_eq_true, if_false]
  rw [List.take_left, show (kwName.map byteLower) = kwName from rfl]
  simp only [if_true, List.drop_left]
  rw [show (fun c : Nat => !decide (c = 10)) = (fun c : Nat => !(c = 10))
    from rfl]
  rw [hassoc, htw.1, hne]
  simp only [Bool.false_eq_true, if_false, List.drop_left, nameCapture,
    List.isEmpty_eq_true]

end CodecYenc

namespace CodecYenc

theorem dropWhile_isWS_of_head (k0 : Nat) (kr rest : List Nat)
    (h : isWS k0 = false) :
    (((k0 :: kr) ++ rest).dropWhile isWS) = (k0 :: kr) ++ rest := by
  rw [List.cons_append, List.dropWhile_cons]
  simp [h]

/-- A keyword fails to match when the stripped input starts with a
different literal token. -/
theorem miss_head (kw : List Nat) (c0 : Nat) (cr rest : List Nat)
    (hc0 : isWS c0 = false)
    (hne : ((c0 :: cr).take kw.length).map byteLower ≠ kw)
    (hlen : kw.length ≤ (c0 :: cr).length) :
    ((((32 : Nat) :: ((c0 :: cr) ++ rest)).dropWhile isWS).take
        kw.length).map byteLower ≠ kw := by
  rw [List.dropWhile_cons]
  simp only [show isWS 32 = true from rfl, if_true]
  rw [dropWhile_isWS_of_head c0 cr rest hc0]
  rw [List.take_append_of_le_length hlen]
  exact hne

theorem allWS_false_head (c0 : Nat) (cr rest : List Nat)
    (hc0 : isWS c0 = false) :
    allWS (32 :: ((c0 :: cr) ++ rest)) = false := by
  simp [allWS, List.cons_append, List.all_cons, hc0]

/-- A keyword fails to match when its first byte differs from the (ASCII
lower-cased) first byte of the stripped input. -/
theorem miss_head_first (k0 : Nat) (krest : List Nat) (c0 : Nat)
    (cr rest : List Nat) (hc0 : isWS c0 = false)
    (hne0 : byteLower c0 ≠ k0) :
    ((((32 : Nat) :: ((c0 :: cr) ++ rest)).dropWhile isWS).take
        (k0 :: krest).length).map byteLower ≠ k0 :: krest := by
  rw [List.dropWhile_cons]
  simp only [show isWS 32 = true from rfl, if_true]
  rw [dropWhile_isWS_of_head c0 cr rest hc0, List.cons_append]
  rw [show (k0 :: krest).length = krest.length + 1 from by simp,
    List.take_succ_cons]
  intro hEq
  simp only [List.map_cons, List.cons.injEq] at hEq
  exact hne0 hEq.1

theorem detect_ypart (b e : Nat) :
    detect (ypartLine b e ++ EOL)
      = some { key := YKey.keyPart, beginN := some b, endN := some e } := by
  have hline : ypartLine b e ++ EOL
      = kwYpart ++ (32 :: (kwBegin ++ (natDigits b
          ++ (32 :: (kwEnd ++ (natDigits e ++ [13, 10])))))) := by
    simp [ypartLine, EOL, kwYpart, kwBegin, kwEnd, List.append_assoc]
  rw [hline]
  set R : List Nat := kwBegin ++ (natDigits b
      ++ (32 :: (kwEnd ++ (natDigits e ++ [13, 10])))) with hR
  have hdw : (kwYpart ++ (32 :: R)).dropWhile isWS = kwYpart ++ (32 :: R) := by
    exact dropWhile_isWS_of_head 61 [121, 112, 97, 114, 116] (32 :: R) rfl
  have hmap : (kwYpart ++ (32 :: R)).map byteLower
      = kwYpart ++ (32 :: R.map byteLower) := by
    rw [List.map_append]
    rfl
  have htake1 : ((kwYpart ++ (32 :: R.map byteLower)).take kwYbegin.length)
      = kwYpart ++ [32] := by
    rw [show kwYbegin.length = kwYpart.length + 1 from rfl, List.take_append]
    rfl
  simp only [detect]
  rw [hdw, hmap, htake1]
  rw [if_neg (by decide : (kwYpart ++ [32] : List Nat) ≠ kwYbegin)]
  rw [show (kwYpart ++ (32 :: R.map byteLower)).take kwYpart.length
      = kwYpart from List.take_left kwYpart _]
  rw [if_pos rfl]
  rw [show (kwYpart ++ (32 :: R)).drop kwYpart.length = 32 :: R from
    List.drop_left kwYpart _]
  simp only [detectTail]
  rw [if_neg (show ¬((32 : Nat) :: R).take 1 = [50] from by
    rw [show ((32 : Nat) :: R).take 1 = [32] from rfl]; decide)]
  -- alternative 1 fails: none of part/total/line/size/name match `begin=`
  have e1 : tryAttrNum kwPart (32 :: R) = (none, 32 :: R) := by
    rw [hR]
    exact tryAttrNum_miss kwPart _
      (miss_head_first 112 [97, 114, 116, 61] 98 [101, 103, 105, 110, 61] _
        rfl (by decide))
  have e2 : tryAttrNum kwTotal (32 :: R) = (none, 32 :: R) := by
    rw [hR]
    exact tryAttrNum_miss kwTotal _
      (miss_head_first 116 [111, 116, 97, 108, 61] 98 [101, 103, 105, 110, 61]
        _ rfl (by decide))
  have e3 : tryAttrNum kwLine (32 :: R) = (none, 32 :: R) := by
    rw [hR]
    exact tryAttrNum_miss kwLine _
      (miss_head_first 108 [105, 110, 101, 61] 98 [101, 103, 105, 110, 61] _
        rfl (by decide))
  have e4 : tryAttrNum kwSize (32 :: R) = (none, 32 :: R) := by
    rw [hR]
    exact tryAttrNum_miss kwSize _
      (miss_head_first 115 [105, 122, 101, 61] 98 [101, 103, 105, 110, 61] _
        rfl (by decide))
  have e5 : tryAttrName (32 :: R) = (none, 32 :: R) := by
    rw [hR]
    exact tryAttrName_miss _
      (miss_head_first 110 [97, 109, 101, 61] 98 [101, 103, 105, 110, 61] _
        rfl (by decide))
  have eWS : allWS (32 :: R) = false := by
    rw [hR]
    exact allWS_false_head 98 [101, 103, 105, 110, 61] _ rfl
  have halt1 : parseAlt1 YKey.keyPart (32 :: R) = none := by
    simp only [parseAlt1, e1, e2, e3, e4, e5, eWS, Bool.false_eq_true,
      if_false]
  have halt2 : parseAlt2 YKey.keyPart (32 :: R) = none := by
    have f1 : tryAttrStr kwPcrc32 (32 :: R) = (none, 32 :: R) := by
      rw [hR]
      exact tryAttrStr_miss kwPcrc32 _
        (miss_head_first 112 [99, 114, 99, 51, 50, 61] 98
          [101, 103, 105, 110, 61] _ rfl (by decide))
    have f2 : tryAttrStr kwCrc32 (32 :: R) = (none, 32 :: R) := by
      rw [hR]
      exact tryAttrStr_miss kwCrc32 _
        (miss_head_first 99 [114, 99, 51, 50, 61] 98 [101, 103, 105, 110, 61]
          _ rfl (by decide))
    simp only [parseAlt2, e4, e1, f1, f2, eWS, Bool.false_eq_true, if_false]
  -- alternative 3 hits: begin= and end=
  have g1 : tryAttrNum kwBegin (32 :: R) = (some b,
      32 :: (kwEnd ++ (natDigits e ++ [13, 10]))) := by
    rw [hR]
    exact tryAttrNum_hit 98 [101, 103, 105, 110, 61] b _ rfl rfl
      (by simp [headNotSat, isDigit])
  have g2 : tryAttrNum kwEnd (32 :: (kwEnd ++ (natDigits e ++ [13, 10])))
      = (some e, [13, 10]) := by
    exact tryAttrNum_hit 101 [110, 100, 61] e _ rfl rfl
      (by simp [headNotSat, isDigit])
  have halt3 : parseAlt3 YKey.keyPart (32 :: R)
      = some { key := YKey.keyPart, beginN := some b, endN := some e } := by
    simp only [parseAlt3, g1, g2]
    rw [if_pos (by decide : allWS [13, 10] = true)]
  simp only [runAlts, halt1, halt2, halt3]

end CodecYenc

namespace CodecYenc

theorem hexChar_alnum (d : Nat) (h : d < 16) : isAlnum (hexChar d) = true := by
  simp only [hexChar]
  split_ifs with h10 <;>
    (simp only [isAlnum, isDigit, Bool.or_eq_true, Bool.and_eq_true,
      decide_eq_true_eq]
     omega)

theorem fmtHex8_all_alnum (n : Nat) :
    ∀ c ∈ fmtHex8 n, isAlnum c = true := by
  intro c hc
  simp only [fmtHex8, List.mem_cons, List.not_mem_nil, or_false] at hc
  rcases hc with h | h | h | h | h | h | h | h <;>
    (subst h; exact hexChar_alnum _ (Nat.mod_lt _ (by omega)))

theorem fmtHex8_ne_nil (n : Nat) : fmtHex8 n ≠ [] := by
  simp [fmtHex8]

theorem detect_ybegin (part total L size : Nat) (name : List Nat)
    (h10 : 10 ∉ name) :
    detect (ybeginLine part total L size name ++ EOL)
      = some { key := YKey.keyBegin, partN := some part, totalN := some total
             , lineN := some L, sizeN := some size
             , nameB := some (stripWS (basenameBytes (nameCapture name))) } := by
  set R4 : List Nat := 32 :: (kwName ++ (name ++ [13, 10])) with hR4
  set R3 : List Nat := 32 :: (kwSize ++ (natDigits size ++ R4)) with hR3
  set R2 : List Nat := 32 :: (kwLine ++ (natDigits L ++ R3)) with hR2
  set R1 : List Nat := 32 :: (kwTotal ++ (natDigits total ++ R2)) with hR1
  set R0 : List Nat := 32 :: (kwPart ++ (natDigits part ++ R1)) with hR0
  have hline : ybeginLine part total L size name ++ EOL = kwYbegin ++ R0 := by
    rw [hR0, hR1, hR2, hR3, hR4]
    simp [ybeginLine, EOL, List.append_assoc]
  rw [hline]
  have hdw : (kwYbegin ++ R0).dropWhile isWS = kwYbegin ++ R0 := by
    rw [hR0]
    exact dropWhile_isWS_of_head 61 [121, 98, 101, 103, 105, 110] _ rfl
  have hmap : (kwYbegin ++ R0).map byteLower
      = kwYbegin ++ (R0.map byteLower) := by
    rw [List.map_append]
    rfl
  simp only [detect]
  rw [hdw, hmap]
  rw [show (kwYbegin ++ R0.map byteLower).take kwYbegin.length = kwYbegin
    from List.take_left kwYbegin _]
  rw [if_pos rfl]
  rw [show (kwYbegin ++ R0).drop kwYbegin.length = R0 from
    List.drop_left kwYbegin _]
  simp only [detectTail]
  rw [if_neg (show ¬R0.take 1 = [50] from by
    rw [hR0, show ((32 : Nat) :: (kwPart ++ (natDigits part ++ R1))).take 1
      = [32] from rfl]; decide)]
  have hd1 : headNotSat isDigit R1 := by rw [hR1]; simp [headNotSat, isDigit]
  have hd2 : headNotSat isDigit R2 := by rw [hR2]; simp [headNotSat, isDigit]
  have hd3 : headNotSat isDigit R3 := by rw [hR3]; simp [headNotSat, isDigit]
  have hd4 : headNotSat isDigit R4 := by rw [hR4]; simp [headNotSat, isDigit]
  have e1 : tryAttrNum kwPart R0 = (some part, R1) := by
    rw [hR0]
    exact tryAttrNum_hit 112 [97, 114, 116, 61] part R1 rfl rfl hd1
  have e2 : tryAttrNum kwTotal R1 = (some total, R2) := by
    rw [hR1]
    exact tryAttrNum_hit 116 [111, 116, 97, 108, 61] total R2 rfl rfl hd2
  have e3 : tryAttrNum kwLine R2 = (some L, R3) := by
    rw [hR2]
    exact tryAttrNum_hit 108 [105, 110, 101, 61] L R3 rfl rfl hd3
  have e4 : tryAttrNum kwSize R3 = (some size, R4) := by
    rw [hR3]
    exact tryAttrNum_hit 115 [105, 122, 101, 61] size R4 rfl rfl hd4
  have e5 : tryAttrName R4 = (some (nameCapture name), [10]) := by
    rw [hR4]
    exact tryAttrName_hit name h10
  have halt1 : parseAlt1 YKey.keyBegin R0
      = some { key := YKey.keyBegin, partN := some part
             , totalN := some total, lineN := some L, sizeN := some size
             , nameB := some (stripWS (basenameBytes (nameCapture name))) } := by
    simp only [parseAlt1, e1, e2, e3, e4, e5]
    rw [if_pos (by decide : allWS [10] = true)]
    rfl
  simp only [runAlts, halt1]

end CodecYenc

namespace CodecYenc

/-- Shared core of the `=yend` detection: parametric in the tail after
the `pcrc32` value (empty or a ` crc32=...` attribute). -/
theorem detect_yend_general (size part pcrc : Nat) (T : List Nat)
    (res : Option (List Nat))
    (hT : headNotSat isAlnum T)
    (hcrc : tryAttrStr kwCrc32 T = (res, [13, 10])) :
    detect (kwYend ++ (32 :: (kwSize ++ (natDigits size
        ++ (32 :: (kwPart ++ (natDigits part
        ++ (32 :: (kwPcrc32 ++ (fmtHex8 pcrc ++ T))))))))))
      = some { key := YKey.keyEnd, sizeN := some size, partN := some part
             , pcrcS := some (fmtHex8 pcrc), crcS := res } := by
  set R2 : List Nat := 32 :: (kwPcrc32 ++ (fmtHex8 pcrc ++ T)) with hR2
  set R1 : List Nat := 32 :: (kwPart ++ (natDigits part ++ R2)) with hR1
  set R0 : List Nat := 32 :: (kwSize ++ (natDigits size ++ R1)) with hR0
  have hdw : (kwYend ++ R0).dropWhile isWS = kwYend ++ R0 := by
    rw [hR0]
    exact dropWhile_isWS_of_head 61 [121, 101, 110, 100] _ rfl
  have hmap : (kwYend ++ R0).map byteLower
      = kwYend ++ (R0.map byteLower) := by
    rw [List.map_append]
    rfl
  have htk2 : (R0.map byteLower).take 2 = [32, 115] := by
    rw [hR0]
    rfl
  simp only [detect]
  rw [hdw, hmap]
  rw [show (kwYend ++ R0.map byteLower).take kwYbegin.length
      = kwYend ++ (R0.map byteLower).take 2 from by
    rw [show kwYbegin.length = kwYend.length + 2 from rfl]
    exact List.take_append 2]
  rw [htk2]
  rw [if_neg (by decide : ¬(kwYend ++ [32, 115] : List Nat) = kwYbegin)]
  rw [show (kwYend ++ R0.map byteLower).take kwYpart.length
      = kwYend ++ (R0.map byteLower).take 1 from by
    rw [show kwYpart.length = kwYend.length + 1 from rfl]
    exact List.take_append 1]
  rw [show (R0.map byteLower).take 1 = [32] from by rw [hR0]; rfl]
  rw [if_neg (by decide : ¬(kwYend ++ [32] : List Nat) = kwYpart)]
  rw [show (kwYend ++ R0.map byteLower).take kwYend.length = kwYend
    from List.take_left kwYend _]
  rw [if_pos rfl]
  rw [show (kwYend ++ R0).drop kwYend.length = R0 from
    List.drop_left kwYend _]
  simp only [detectTail]
  rw [if_neg (show ¬R0.take 1 = [50] from by
    rw [hR0, show ((32 : Nat) :: (kwSize ++ (natDigits size ++ R1))).take 1
      = [32] from rfl]; decide)]
  have hd1 : headNotSat isDigit R1 := by rw [hR1]; simp [headNotSat, isDigit]
  have hd2 : headNotSat isDigit R2 := by rw [hR2]; simp [headNotSat, isDigit]
  -- alternative 1: part/total/line miss, size hits, name misses, rest not WS
  have m1 : tryAttrNum kwPart R0 = (none, R0) := by
    rw [hR0]
    exact tryAttrNum_miss kwPart _
      (miss_head_first 112 [97, 114, 116, 61] 115 [105, 122, 101, 61] _ rfl
        (by decide))
  have m2 : tryAttrNum kwTotal R0 = (none, R0) := by
    rw [hR0]
    exact tryAttrNum_miss kwTotal _
      (miss_head_first 116 [111, 116, 97, 108, 61] 115 [105, 122, 101, 61] _
        rfl (by decide))
  have m3 : tryAttrNum kwLine R0 = (none, R0) := by
    rw [hR0]
    exact tryAttrNum_miss kwLine _
      (miss_head_first 108 [105, 110, 101, 61] 115 [105, 122, 101, 61] _ rfl
        (by decide))
  have e4 : tryAttrNum kwSize R0 = (some size, R1) := by
    rw [hR0]
    exact tryAttrNum_hit 115 [105, 122, 101, 61] size R1 rfl rfl hd1
  have m5 : tryAttrName R1 = (none, R1) := by
    rw [hR1]
    exact tryAttrName_miss _
      (miss_head_first 110 [97, 109, 101, 61] 112 [97, 114, 116, 61] _ rfl
        (by decide))
  have mWS : allWS R1 = false := by
    rw [hR1]
    exact allWS_false_head 112 [97, 114, 116, 61] _ rfl
  have halt1 : parseAlt1 YKey.keyEnd R0 = none := by
    simp only [parseAlt1, m1, m2, m3, e4, m5, mWS, Bool.false_eq_true,
      if_false]
  -- alternative 2 hits
  have e5 : tryAttrNum kwPart R1 = (some part, R2) := by
    rw [hR1]
    exact tryAttrNum_hit 112 [97, 114, 116, 61] part R2 rfl rfl hd2
  have e6 : tryAttrStr kwPcrc32 R2 = (some (fmtHex8 pcrc), T) := by
    rw [hR2]
    exact tryAttrStr_hit 112 [99, 114, 99, 51, 50, 61] (fmtHex8 pcrc) T rfl
      rfl (fmtHex8_all_alnum pcrc) (fmtHex8_ne_nil pcrc) hT
  have halt2 : parseAlt2 YKey.keyEnd R0
      = some { key := YKey.keyEnd, sizeN := some size, partN := some part
             , pcrcS := some (fmtHex8 pcrc), crcS := res } := by
    simp only [parseAlt2, e4, e5, e6, hcrc]
    rw [if_pos (by decide : allWS [13, 10] = true)]
  simp only [runAlts, halt1, halt2]

theorem detect_yend (size part pcrc : Nat) (pc : Option Nat) :
    detect (yendLine size part pcrc pc ++ EOL)
      = some { key := YKey.keyEnd, sizeN := some size, partN := some part
             , pcrcS := some (fmtHex8 pcrc), crcS := pc.map fmtHex8 } := by
  rcases pc with _ | w
  · have hline : yendLine size part pcrc none ++ EOL
        = kwYend ++ (32 :: (kwSize ++ (natDigits size
            ++ (32 :: (kwPart ++ (natDigits part
            ++ (32 :: (kwPcrc32 ++ (fmtHex8 pcrc ++ [13, 10]))))))))) := by
      simp [yendLine, EOL, List.append_assoc]
    rw [hline]
    exact detect_yend_general size part pcrc [13, 10] none
      (by simp [headNotSat, isAlnum, isDigit])
      (tryAttrStr_miss kwCrc32 [13, 10] (by decide))
  · have hline : yendLine size part pcrc (some w) ++ EOL
        = kwYend ++ (32 :: (kwSize ++ (natDigits size
            ++ (32 :: (kwPart ++ (natDigits part
            ++ (32 :: (kwPcrc32 ++ (fmtHex8 pcrc
            ++ (32 :: (kwCrc32 ++ (fmtHex8 w ++ [13, 10])))))))))))) := by
      simp [yendLine, EOL, List.append_assoc]
    rw [hline]
    exact detect_yend_general size part pcrc
      (32 :: (kwCrc32 ++ (fmtHex8 w ++ [13, 10]))) (some (fmtHex8 w))
      (by simp [headNotSat, isAlnum, isDigit])
      (tryAttrStr_hit 99 [114, 99, 51, 50, 61] (fmtHex8 w) [13, 10] rfl rfl
        (fmtHex8_all_alnum w) (fmtHex8_ne_nil w)
        (by simp [headNotSat, isAlnum, isDigit]))

end CodecYenc

namespace CodecYenc

theorem escapedEnc_cases (e : Nat) (h : escapedEnc e = true) :
    e = 0 ∨ e = 13 ∨ e = 10 ∨ e = 61 ∨ e = 32 ∨ e = 9 ∨ e = 46 := by
  simp only [escapedEnc, Bool.or_eq_true, decide_eq_true_eq] at h
  tauto

theorem not_escaped_facts (e : Nat) (h : escapedEnc e = false) :
    e ≠ 61 ∧ e ≠ 13 ∧ e ≠ 10 ∧ e ≠ 32 ∧ e ≠ 9 ∧ e ≠ 0 ∧ e ≠ 46 := by
  simp only [escapedEnc, Bool.or_eq_false_iff, decide_eq_false_iff_not] at h
  tauto

theorem escTail_of_escaped (e : Nat) (h : escapedEnc e = true) :
    escTail ((e + 64) % 256) = true ∧ (e + 64) % 256 - 64 = e ∧
    (e + 64) % 256 ≠ 10 ∧ (e + 64) % 256 ≠ 13 ∧
    byteLower ((e + 64) % 256) ≠ 121 := by
  rcases escapedEnc_cases e h with h1 | h1 | h1 | h1 | h1 | h1 | h1 <;>
    (subst h1; refine ⟨rfl, rfl, by decide, by decide, by decide⟩)

theorem ydecSub_cons_plain (c : Nat) (l : List Nat)
    (h61 : c ≠ 61) (h13 : c ≠ 13) (h10 : c ≠ 10) :
    ydecSub (c :: l) = c :: ydecSub l := by
  rw [ydecSub.eq_def]
  simp only [if_neg h61, if_neg h13, if_neg h10]

theorem ydecSub_escape (bs tail : List Nat) :
    ydecSub (yencEscape bs ++ tail)
      = (bs.map fun b => (b + 42) % 256) ++ ydecSub tail := by
  induction bs with
  | nil => rfl
  | cons b bs ih =>
      simp only [yencEscape]
      rcases hesc : escapedEnc ((b + 42) % 256) with hF | hT
      · have hf := not_escaped_facts _ hesc
        simp only [Bool.false_eq_true, if_false, List.cons_append,
          List.map_cons]
        rw [ydecSub_cons_plain _ _ hf.1 hf.2.1 hf.2.2.1, ih]
      · have hfacts := escTail_of_escaped _ hesc
        simp only [if_true, List.cons_append, List.map_cons]
        have hstep : ydecSub ((61 : Nat) :: (((b + 42) % 256 + 64) % 256)
            :: (yencEscape bs ++ tail))
            = ((((b + 42) % 256 + 64) % 256) - 64)
              :: ydecSub (yencEscape bs ++ tail) := by
          simp only [ydecSub, if_pos rfl, hfacts.1, if_true]
        rw [hstep, hfacts.2.1, ih]

theorem ydecLine_escape (bs : List Nat) (hb : ∀ b ∈ bs, b < 256) :
    ydecLine (yencEscape bs ++ [13, 10]) = bs := by
  unfold ydecLine yTranslate
  rw [ydecSub_escape]
  rw [show ydecSub [13, 10] = [] from rfl, List.append_nil, List.map_map]
  have : ∀ b ∈ bs, (((b + 42) % 256 + 214) % 256) = b := by
    intro b hbm
    have := hb b hbm
    omega
  calc bs.map ((fun c => (c + 214) % 256) ∘ fun b => (b + 42) % 256)
      = bs.map id := List.map_congr_left (by simpa using this)
    _ = bs := List.map_id bs

theorem ten_not_mem_escape (bs : List Nat) : 10 ∉ yencEscape bs := by
  induction bs with
  | nil => simp [yencEscape]
  | cons b bs ih =>
      simp only [yencEscape]
      rcases hesc : escapedEnc ((b + 42) % 256) with hF | hT
      · have hf := not_escaped_facts _ hesc
        simp only [Bool.false_eq_true, if_false, List.mem_cons]
        rintro (h | h)
        · exact hf.2.2.1 h.symm
        · exact ih h
      · have hfacts := escTail_of_escaped _ hesc
        simp only [if_true, List.mem_cons]
        rintro (h | h | h)
        · cases h
        · exact hfacts.2.2.1 h.symm
        · exact ih h

end CodecYenc

namespace CodecYenc

/-- Detection only depends on the whitespace-stripped line. -/
theorem detect_cons_ws (c : Nat) (l : List Nat) (h : isWS c = true) :
    detect (c :: l) = detect l := by
  simp only [detect, List.dropWhile_cons, h, if_true]

/-- A line whose first non-blank byte does not lower-case to `'='` never
matches `YENC_RE`. -/
theorem detect_none_head (c : Nat) (l : List Nat) (hws : isWS c = false)
    (h61 : byteLower c ≠ 61) : detect (c :: l) = none := by
  simp only [detect, List.dropWhile_cons, hws, Bool.false_eq_true, if_false,
    List.map_cons]
  have hne : ∀ (kw : List Nat) (k : Nat), kw.head? = some 61 → k ≠ 0 →
      ¬(byteLower c :: l.map byteLower).take k = kw := by
    intro kw k hkw hk0 hEq
    have h2 := congrArg List.head? hEq
    rw [List.head?_take] at h2
    rw [if_neg hk0] at h2
    simp only [List.head?_cons, hkw, Option.some.injEq] at h2
    exact h61 h2
  rw [if_neg (hne kwYbegin kwYbegin.length rfl (by decide)),
    if_neg (hne kwYpart kwYpart.length rfl (by decide)),
    if_neg (hne kwYend kwYend.length rfl (by decide))]

/-- A line starting `'='` followed by a byte that does not lower-case to
`'y'` never matches `YENC_RE`. -/
theorem detect_none_head61 (t : Nat) (l : List Nat)
    (ht : byteLower t ≠ 121) : detect (61 :: t :: l) = none := by
  simp only [detect, List.dropWhile_cons, show isWS 61 = false from rfl,
    Bool.false_eq_true, if_false, List.map_cons]
  have hne : ∀ (kw : List Nat) (k : Nat), kw[1]? = some 121 → 1 < k →
      ¬(byteLower 61 :: byteLower t :: l.map byteLower).take k = kw := by
    intro kw k hkw hk1 hEq
    have h2 : ((byteLower 61 :: byteLower t :: l.map byteLower).take k)[1]?
        = kw[1]? := by rw [hEq]
    rw [List.getElem?_take, if_pos hk1, hkw] at h2
    simp only [List.getElem?_cons_succ, List.getElem?_cons_zero,
      Option.some.injEq] at h2
    exact ht h2
  rw [if_neg (hne kwYbegin kwYbegin.length rfl (by decide)),
    if_neg (hne kwYpart kwYpart.length rfl (by decide)),
    if_neg (hne kwYend kwYend.length rfl (by decide))]

/-- Payload lines produced by the escape encoder are never mistaken for
keyword lines. -/
theorem detect_escape_line_none (bs : List Nat) :
    detect (yencEscape bs ++ [13, 10]) = none := by
  induction bs with
  | nil => decide
  | cons b bs ih =>
      simp only [yencEscape]
      rcases hesc : escapedEnc ((b + 42) % 256) with hF | hT
      · have hf := not_escaped_facts _ hesc
        simp only [Bool.false_eq_true, if_false, List.cons_append]
        rcases hws : isWS ((b + 42) % 256) with hwF | hwT
        · apply detect_none_head _ _ hws
          simp only [byteLower]
          split_ifs with hr
          · simp only [Bool.and_eq_true, decide_eq_true_eq] at hr
            omega
          · exact hf.1
        · rw [detect_cons_ws _ _ hws]
          exact ih
      · have hfacts := escTail_of_escaped _ hesc
        simp only [if_true, List.cons_append]
        exact detect_none_head61 _ _ hfacts.2.2.2.2

end CodecYenc

namespace CodecYenc

/-- `stream.readline()` on a buffer whose first `\n` closes the prefix. -/
theorem readLine_append (l rest : List Nat) (h10 : 10 ∉ l) :
    readLine (l ++ 10 :: rest) = (l ++ [10], rest) := by
  induction l with
  | nil => simp [readLine]
  | cons c l ih =>
      have hc : c ≠ 10 := fun h => h10 (h ▸ List.mem_cons_self c l)
      rw [List.cons_append, readLine, if_neg hc,
        ih (fun h => h10 (List.mem_cons_of_mem c h))]
      rfl

/-- The escape encoder emits at least one character per input byte. -/
theorem yencEscape_eq_nil (bs : List Nat) : yencEscape bs = [] ↔ bs = [] := by
  cases bs with
  | nil => simp [yencEscape]
  | cons b rest =>
      simp only [yencEscape, List.cons_ne_nil, iff_false]
      split <;> simp

theorem escTail_ne_61 (c : Nat) (h : escTail c = true) : c ≠ 61 := by
  simp only [escTail, Bool.or_eq_true, decide_eq_true_eq] at h
  omega

/-- In escape-encoder output a `'='` is always an escape lead, and escape
tails are never `'='`: no two consecutive `'='` characters occur. -/
theorem yencEscape_no_consec (bs : List Nat) :
    ∀ i, (yencEscape bs)[i]? = some 61 → (yencEscape bs)[i + 1]? ≠ some 61 := by
  induction bs with
  | nil => intro i h; simp [yencEscape] at h
  | cons b rest ih =>
      intro i h
      rcases hesc : escapedEnc ((b + 42) % 256) with hF | hT
      · have hf := not_escaped_facts _ hesc
        simp only [yencEscape, hesc, Bool.false_eq_true, if_false] at h ⊢
        cases i with
        | zero =>
            simp only [List.getElem?_cons_zero, Option.some.injEq] at h
            exact absurd h hf.1
        | succ j =>
            simp only [List.getElem?_cons_succ] at h ⊢
            exact ih j h
      · have hfacts := escTail_of_escaped _ hesc
        have ht61 : ((b + 42) % 256 + 64) % 256 ≠ 61 :=
          escTail_ne_61 _ hfacts.1
        simp only [yencEscape, hesc, if_true] at h ⊢
        cases i with
        | zero =>
            simp only [List.getElem?_cons_succ, List.getElem?_cons_zero,
              Option.some.injEq, ne_eq]
            exact ht61
        | succ j =>
            cases j with
            | zero =>
                simp only [List.getElem?_cons_succ,
                  List.getElem?_cons_zero, Option.some.injEq] at h
                exact absurd h ht61
            | succ m =>
                simp only [List.getElem?_cons_succ] at h ⊢
                exact ih m h

/-- The last element of a non-degenerate `take` is an indexed element. -/
theorem getLast_take_eq_getElem (l : List Nat) (k : Nat) (h1 : 1 ≤ k)
    (h2 : k ≤ l.length) : (l.take k).getLast? = l[k - 1]? := by
  rw [List.getLast?_eq_getElem?, List.length_take,
    show min k l.length = k by omega, List.getElem?_take,
    if_pos (show k - 1 < k by omega)]

/-- If a prefix of the escaped stream ends on the escape lead `'='`, the
prefix one character shorter does not (CodecYenc.py lines 349-353: the
encoder's pull-back of a line boundary off an escape lead lands on a
character that is not itself a lead). -/
theorem escape_no_double (bs : List Nat) (L : Nat) (h2 : 2 ≤ L)
    (hle : L ≤ (yencEscape bs).length)
    (h : ((yencEscape bs).take L).getLast? = some 61) :
    ((yencEscape bs).take (L - 1)).getLast? ≠ some 61 := by
  rw [getLast_take_eq_getElem _ _ (by omega) hle] at h
  rw [getLast_take_eq_getElem _ _ (by omega) (by omega)]
  intro hcon
  rw [show L - 1 - 1 = L - 2 by omega] at hcon
  exact yencEscape_no_consec bs (L - 2) hcon
    (by rw [show L - 2 + 1 = L - 1 by omega]; exact h)

end CodecYenc

namespace CodecYenc

/-- Any prefix of the escaped stream that does not end on the escape lead
`'='` is itself the escape encoding of a prefix of the input bytes, and
the corresponding suffix is the encoding of the remaining bytes. -/
theorem escape_take_split (bs : List Nat) (n : Nat) (hn : 0 < n)
    (hle : n ≤ (yencEscape bs).length)
    (hlast : ((yencEscape bs).take n).getLast? ≠ some 61) :
    ∃ b1 b2, bs = b1 ++ b2 ∧ b1 ≠ []
      ∧ yencEscape b1 = (yencEscape bs).take n
      ∧ yencEscape b2 = (yencEscape bs).drop n := by
  induction bs generalizing n with
  | nil =>
      rw [show yencEscape [] = [] from rfl] at hle
      simp only [List.length_nil] at hle
      omega
  | cons b rest ih =>
      rcases hesc : escapedEnc ((b + 42) % 256) with hF | hT
      · have hunf : yencEscape (b :: rest)
            = (b + 42) % 256 :: yencEscape rest := by
          simp only [yencEscape, hesc, Bool.false_eq_true, if_false]
        rw [hunf] at hle hlast ⊢
        rcases n with _ | _ | m
        · omega
        · refine ⟨[b], rest, rfl, by simp, ?_, ?_⟩
          · simp only [yencEscape, hesc, Bool.false_eq_true, if_false]
            rfl
          · rfl
        · have hYlen : m + 1 ≤ (yencEscape rest).length := by
            simp only [List.length_cons] at hle; omega
          have htk : ((b + 42) % 256 :: yencEscape rest).take (m + 1 + 1)
              = (b + 42) % 256 :: (yencEscape rest).take (m + 1) := rfl
          rw [htk] at hlast
          have hne : (yencEscape rest).take (m + 1) ≠ [] :=
            List.ne_nil_of_length_pos (by rw [List.length_take]; omega)
          have hlast' : ((yencEscape rest).take (m + 1)).getLast? ≠ some 61 := by
            rw [show (b + 42) % 256 :: (yencEscape rest).take (m + 1)
                = [(b + 42) % 256] ++ (yencEscape rest).take (m + 1) from rfl,
              List.getLast?_append_of_ne_nil _ hne] at hlast
            exact hlast
          obtain ⟨b1, b2, hsplit, hb1ne, he1, he2⟩ :=
            ih (m + 1) (by omega) hYlen hlast'
          refine ⟨b :: b1, b2, by rw [List.cons_append, ← hsplit], by simp,
            ?_, ?_⟩
          · have hu1 : yencEscape (b :: b1)
                = (b + 42) % 256 :: yencEscape b1 := by
              simp only [yencEscape, hesc, Bool.false_eq_true, if_false]
            rw [hu1, he1, htk]
          · rw [he2]
            rfl
      · have hunf : yencEscape (b :: rest)
            = 61 :: ((b + 42) % 256 + 64) % 256 :: yencEscape rest := by
          simp only [yencEscape, hesc, if_true]
        rw [hunf] at hle hlast ⊢
        rcases n with _ | _ | _ | m
        · omega
        · exact absurd rfl hlast
        · refine ⟨[b], rest, rfl, by simp, ?_, ?_⟩
          · simp only [yencEscape, hesc, if_true]
            rfl
          · rfl
        · have hYlen : m + 1 ≤ (yencEscape rest).length := by
            simp only [List.length_cons] at hle; omega
          have htk : (61 :: ((b + 42) % 256 + 64) % 256
                :: yencEscape rest).take (m + 1 + 1 + 1)
              = 61 :: ((b + 42) % 256 + 64) % 256
                :: (yencEscape rest).take (m + 1) := rfl
          rw [htk] at hlast
          have hne : (yencEscape rest).take (m + 1) ≠ [] :=
            List.ne_nil_of_length_pos (by rw [List.length_take]; omega)
          have hlast' : ((yencEscape rest).take (m + 1)).getLast? ≠ some 61 := by
            rw [show 61 :: ((b + 42) % 256 + 64) % 256
                  :: (yencEscape rest).take (m + 1)
                = [61, ((b + 42) % 256 + 64) % 256]
                  ++ (yencEscape rest).take (m + 1) from rfl,
              List.getLast?_append_of_ne_nil _ hne] at hlast
            exact hlast
          obtain ⟨b1, b2, hsplit, hb1ne, he1, he2⟩ :=
            ih (m + 1) (by omega) hYlen hlast'
          refine ⟨b :: b1, b2, by rw [List.cons_append, ← hsplit], by simp,
            ?_, ?_⟩
          · have hu1 : yencEscape (b :: b1)
                = 61 :: ((b + 42) % 256 + 64) % 256 :: yencEscape b1 := by
              simp only [yencEscape, hesc, if_true]
            rw [hu1, he1, htk]
          · rw [he2]
            rfl

end CodecYenc

namespace CodecYenc

/-- One loop iteration on a payload line produced by the encoder: the
line is not a keyword line, decodes back to its source bytes, and those
bytes are appended to the accumulated Content (CodecYenc.py lines
536-576). -/
theorem decode_payload_line_step (st : DecState) (d : BinContent)
    (b1 rest : List Nat) (fuel : Nat)
    (hb : ∀ b ∈ b1, b < 256)
    (hbeg : st.metaBegin = true) (hdec : st.decoded = some d)
    (hmax : st.maxBytes = 0) :
    decodeLoopF (fuel + 1) st ((yencEscape b1 ++ EOL) ++ rest)
      = decodeLoopF fuel
          { st with totalLines := st.totalLines + 1
                  , crc := calcCrc st.crc b1
                  , lines := st.lines + 1
                  , decodedBytes := st.decodedBytes + b1.length
                  , decoded := some { d with data := d.data ++ b1 } }
          rest := by
  have h10 : 10 ∉ yencEscape b1 ++ [13] := by
    intro h
    rcases List.mem_append.mp h with h | h
    · exact ten_not_mem_escape b1 h
    · simp at h
  have hstream : (yencEscape b1 ++ EOL) ++ rest
      = (yencEscape b1 ++ [13]) ++ 10 :: rest := by
    simp [EOL, List.append_assoc]
  have hrl : readLine ((yencEscape b1 ++ [13]) ++ 10 :: rest)
      = (yencEscape b1 ++ [13, 10], rest) := by
    rw [readLine_append _ _ h10]
    simp [List.append_assoc]
  have hne : ((yencEscape b1 ++ [13]) ++ 10 :: rest).isEmpty = false := by
    rcases h : yencEscape b1 ++ [13] with _ | ⟨c, l⟩
    · simp at h
    · rfl
  rcases st with ⟨mb, mp, me, pt, dc, cr, tl, ln, db, mx⟩
  rcases d with ⟨fn, prt, dat, vl⟩
  dsimp only at hbeg hdec hmax
  subst hbeg hmax
  rw [hstream, decodeLoopF]
  simp only [hne, Bool.false_eq_true, if_false, hrl,
    detect_escape_line_none, Bool.not_true, Bool.false_and,
    Bool.false_eq_true, if_false, ydecLine_escape b1 hb, hdec]
  dsimp only
  simp only [List.length_nil, Nat.add_zero, show ¬(0 : Nat) > 0 by omega,
    decide_False, Bool.false_and, Bool.false_eq_true, if_false]

end CodecYenc

namespace CodecYenc

/-- Decoding the encoder's wrapped payload block: the loop consumes every
payload line, appending exactly the source bytes to the accumulated
Content while leaving the keyword flags, part number and byte cap
untouched; the number of iterations spent is at most the block's length. -/
theorem payload_stream_decode (wfuel : Nat) : ∀ (L : Nat) (bs : List Nat)
    (st : DecState) (d : BinContent),
    2 ≤ L → (∀ b ∈ bs, b < 256) →
    (yencEscape bs).length < wfuel →
    st.metaBegin = true → st.decoded = some d → st.maxBytes = 0 →
    ∃ k st',
      k ≤ (((wrapLinesF wfuel L (yencEscape bs)).map
          (fun l => l ++ EOL)).flatten).length
      ∧ st'.decoded = some { d with data := d.data ++ bs }
      ∧ st'.metaBegin = true ∧ st'.metaPart = st.metaPart
      ∧ st'.metaEnd = st.metaEnd ∧ st'.part = st.part ∧ st'.maxBytes = 0
      ∧ ∀ fuel tail,
          decodeLoopF (k + fuel) st
            ((((wrapLinesF wfuel L (yencEscape bs)).map
                (fun l => l ++ EOL)).flatten) ++ tail)
          = decodeLoopF fuel st' tail := by
  induction wfuel with
  | zero =>
      intro L bs st d hL hb hfuel hbeg hdec hmax
      exact absurd hfuel (by omega)
  | succ wf ih =>
      intro L bs st d hL hb hfuel hbeg hdec hmax
      rcases Nat.lt_or_ge (yencEscape bs).length L with hlen | hlen
      · rcases hemp : (yencEscape bs).isEmpty with _ | _
        · have hwrap : wrapLinesF (wf + 1) L (yencEscape bs)
              = [yencEscape bs] := by
            rw [wrapLinesF, if_pos hlen]
            simp only [hemp, Bool.false_eq_true, if_false]
          rw [hwrap]
          simp only [List.map_cons, List.map_nil, List.flatten_cons,
            List.flatten_nil, List.append_nil]
          refine ⟨1,
            { st with totalLines := st.totalLines + 1
                    , crc := calcCrc st.crc bs
                    , lines := st.lines + 1
                    , decodedBytes := st.decodedBytes + bs.length
                    , decoded := some { d with data := d.data ++ bs } },
            ?_, rfl, hbeg, rfl, rfl, rfl, hmax, ?_⟩
          · simp only [List.length_append, EOL, List.length_cons,
              List.length_nil]
            omega
          · intro fuel tail
            rw [Nat.add_comm 1 fuel]
            exact decode_payload_line_step st d bs tail fuel hb hbeg hdec hmax
        · have hbs : bs = [] := (yencEscape_eq_nil bs).mp
            (by simpa using hemp)
          subst hbs
          have hwrap : wrapLinesF (wf + 1) L (yencEscape [])
              = [] := by
            rw [wrapLinesF, if_pos hlen]
            simp only [hemp, if_true]
          rw [hwrap]
          simp only [List.map_nil, List.flatten_nil, List.length_nil,
            List.nil_append]
          refine ⟨0, st, Nat.le_refl 0, ?_, hbeg, rfl, rfl, rfl, hmax, ?_⟩
          · rw [hdec, List.append_nil]
          · intro fuel tail
            rw [Nat.zero_add]
      · have hwrap : wrapLinesF (wf + 1) L (yencEscape bs)
            = (if ((yencEscape bs).take L).getLast? = some 61
                then (yencEscape bs).take (L - 1) else (yencEscape bs).take L)
              :: wrapLinesF wf L ((yencEscape bs).drop
                (if ((yencEscape bs).take L).getLast? = some 61
                  then (yencEscape bs).take (L - 1)
                  else (yencEscape bs).take L).length) := by
          rw [wrapLinesF, if_neg (show ¬(yencEscape bs).length < L by omega)]
        obtain ⟨n, hn0, hnle, hnlast, hline⟩ :
            ∃ n, 0 < n ∧ n ≤ (yencEscape bs).length
              ∧ ((yencEscape bs).take n).getLast? ≠ some 61
              ∧ (if ((yencEscape bs).take L).getLast? = some 61
                  then (yencEscape bs).take (L - 1)
                  else (yencEscape bs).take L) = (yencEscape bs).take n := by
          by_cases hlast : ((yencEscape bs).take L).getLast? = some 61
          · exact ⟨L - 1, by omega, by omega,
              escape_no_double bs L hL hlen hlast, by rw [if_pos hlast]⟩
          · exact ⟨L, by omega, hlen, hlast, by rw [if_neg hlast]⟩
        rw [hline] at hwrap
        have hlenn : ((yencEscape bs).take n).length = n := by
          rw [List.length_take]; omega
        rw [hlenn] at hwrap
        obtain ⟨b1, b2, hsplit, hb1ne, he1, he2⟩ :=
          escape_take_split bs n hn0 hnle hnlast
        rw [← he1, ← he2] at hwrap
        rw [hwrap]
        simp only [List.map_cons, List.flatten_cons]
        have hb1 : ∀ b ∈ b1, b < 256 := by
          intro b h
          exact hb b (by rw [hsplit]; exact List.mem_append_left _ h)
        have hb2 : ∀ b ∈ b2, b < 256 := by
          intro b h
          exact hb b (by rw [hsplit]; exact List.mem_append_right _ h)
        have hfl' : (yencEscape b2).length < wf := by
          have h1 := congrArg List.length he2
          rw [List.length_drop] at h1
          omega
        obtain ⟨k', st'', hk', hdec'', hbeg'', hmp'', hme'', hpt'', hmx'',
            hrun''⟩ :=
          ih L b2
            { st with totalLines := st.totalLines + 1
                    , crc := calcCrc st.crc b1
                    , lines := st.lines + 1
                    , decodedBytes := st.decodedBytes + b1.length
                    , decoded := some { d with data := d.data ++ b1 } }
            { d with data := d.data ++ b1 }
            hL hb2 hfl' hbeg rfl hmax
        refine ⟨k' + 1, st'', ?_, ?_, hbeg'', hmp'', hme'', hpt'', hmx'', ?_⟩
        · rw [List.length_append]
          have hj : (yencEscape b1 ++ EOL).length
              = (yencEscape b1).length + 2 := by
            simp [EOL]
          omega
        · rw [hdec'', hsplit]
          dsimp only
          rw [List.append_assoc]
        · intro fuel tail
          rw [show k' + 1 + fuel = (k' + fuel) + 1 by omega,
            List.append_assoc,
            decode_payload_line_step st d b1 _ (k' + fuel) hb1 hbeg hdec hmax]
          exact hrun'' fuel tail

end CodecYenc

namespace CodecYenc

theorem ten_not_mem_digits (n : Nat) : 10 ∉ natDigits n := by
  intro h
  exact absurd (natDigits_all_digit n 10 h) (by decide)

theorem ten_not_mem_hex8 (n : Nat) : 10 ∉ fmtHex8 n := by
  intro h
  exact absurd (fmtHex8_all_alnum n 10 h) (by decide)

/-- The `=ybegin` header holds no `\n` before its own line end when the
filename holds none. -/
theorem ten_not_mem_ybegin (part total L size : Nat) (name : List Nat)
    (h10 : 10 ∉ name) :
    10 ∉ ybeginLine part total L size name ++ [13] := by
  intro h
  simp only [ybeginLine, kwYbegin, kwPart, kwTotal, kwLine, kwSize, kwName,
    List.append_assoc, List.mem_append, List.mem_cons, List.not_mem_nil,
    List.mem_singleton, ten_not_mem_digits, h10, or_false, false_or] at h
  omega

/-- The `=ypart` header holds no `\n` before its own line end. -/
theorem ten_not_mem_ypart (b e : Nat) : 10 ∉ ypartLine b e ++ [13] := by
  intro h
  simp only [ypartLine, kwYpart, kwBegin, kwEnd, List.append_assoc,
    List.mem_append, List.mem_cons, List.not_mem_nil, List.mem_singleton,
    ten_not_mem_digits, or_false, false_or] at h
  omega

/-- The `=yend` footer holds no `\n` before its own line end. -/
theorem ten_not_mem_yend (size part pcrc : Nat) (pc : Option Nat) :
    10 ∉ yendLine size part pcrc pc ++ [13] := by
  intro h
  rcases pc with _ | w <;>
    simp only [yendLine, kwYend, kwSize, kwPart, kwPcrc32, kwCrc32,
      List.append_assoc, List.mem_append, List.mem_cons, List.not_mem_nil,
      List.mem_singleton, ten_not_mem_digits, ten_not_mem_hex8,
      List.append_nil, or_false, false_or] at h <;>
    omega

theorem isEmpty_append13 (l rest : List Nat) :
    ((l ++ [13]) ++ 10 :: rest).isEmpty = false := by
  rcases h : l ++ [13] with _ | ⟨c, t⟩
  · simp at h
  · rfl

end CodecYenc

namespace CodecYenc

/-- One loop iteration on a line `detect`ed as `=ybegin` (with a part
number and a name captured): the keyword is recorded, the part number
adopted and a fresh Content allocated with the captured filename
(CodecYenc.py lines 466-534). -/
theorem decode_begin_line_step (st : DecState) (lb rest : List Nat)
    (fuel : Nat) (m : YMeta) (p : Nat) (nm : List Nat)
    (h10 : 10 ∉ lb ++ [13])
    (hdet : detect (lb ++ EOL) = some m)
    (hkey : m.key = YKey.keyBegin)
    (hpart : m.partN = some p)
    (hname : m.nameB = some nm)
    (hbeg : st.metaBegin = false) :
    decodeLoopF (fuel + 1) st ((lb ++ EOL) ++ rest)
      = decodeLoopF fuel
          { st with totalLines := st.totalLines + 1, metaBegin := true
                  , part := p
                  , decoded := some { filename := nm, part := p
                                    , data := [], valid := false } }
          rest := by
  have hstream : (lb ++ EOL) ++ rest = (lb ++ [13]) ++ 10 :: rest := by
    simp [EOL, List.append_assoc]
  have hrl : readLine ((lb ++ [13]) ++ 10 :: rest) = (lb ++ EOL, rest) := by
    rw [readLine_append _ _ h10]
    simp [EOL, List.append_assoc]
  rcases st with ⟨mb, mp, me, pt, dc, cr, tl, ln, db, mx⟩
  dsimp only at hbeg
  subst hbeg
  rw [hstream, decodeLoopF, isEmpty_append13]
  simp only [Bool.false_eq_true, if_false, hrl, hdet, hkey, hname, hpart,
    keyIn, setKey, Option.getD]
  simp only [show decide (YKey.keyBegin = YKey.keyEnd) = false from rfl,
    Bool.false_and, Bool.false_eq_true, if_false]

/-- One loop iteration on a line `detect`ed as `=ypart` (carrying no
`part=` attribute) after `=ybegin`: the keyword is recorded and the
Content's part number refreshed from the decoder state (CodecYenc.py
lines 466-534). -/
theorem decode_part_line_step (st : DecState) (d : BinContent)
    (lb rest : List Nat) (fuel : Nat) (m : YMeta)
    (h10 : 10 ∉ lb ++ [13])
    (hdet : detect (lb ++ EOL) = some m)
    (hkey : m.key = YKey.keyPart)
    (hpart : m.partN = none)
    (hmp : st.metaPart = false)
    (hbeg : st.metaBegin = true)
    (hdec : st.decoded = some d) :
    decodeLoopF (fuel + 1) st ((lb ++ EOL) ++ rest)
      = decodeLoopF fuel
          { st with totalLines := st.totalLines + 1, metaPart := true
                  , decoded := some { d with part := st.part } }
          rest := by
  have hstream : (lb ++ EOL) ++ rest = (lb ++ [13]) ++ 10 :: rest := by
    simp [EOL, List.append_assoc]
  have hrl : readLine ((lb ++ [13]) ++ 10 :: rest) = (lb ++ EOL, rest) := by
    rw [readLine_append _ _ h10]
    simp [EOL, List.append_assoc]
  rcases st with ⟨mb, mp, me, pt, dc, cr, tl, ln, db, mx⟩
  dsimp only at hmp hbeg hdec
  subst hmp hbeg hdec
  rw [hstream, decodeLoopF, isEmpty_append13]
  simp only [Bool.false_eq_true, if_false, hrl, hdet, hkey, hpart,
    keyIn, setKey, Option.getD]
  simp only [show decide (YKey.keyPart = YKey.keyEnd) = false from rfl,
    Bool.false_and, Bool.false_eq_true, if_false, Bool.not_true,
    Bool.false_eq_true]

/-- One loop iteration on a line `detect`ed as `=yend` after `=ybegin`:
the loop breaks, marking the accumulated Content valid — with no
comparison of the footer's `pcrc32` against the rolling CRC
(CodecYenc.py lines 466-480). -/
theorem decode_end_line_step (st : DecState) (d : BinContent)
    (lb rest : List Nat) (fuel : Nat) (m : YMeta)
    (h10 : 10 ∉ lb ++ [13])
    (hdet : detect (lb ++ EOL) = some m)
    (hkey : m.key = YKey.keyEnd)
    (hme : st.metaEnd = false)
    (hbeg : st.metaBegin = true)
    (hdec : st.decoded = some d) :
    decodeLoopF (fuel + 1) st ((lb ++ EOL) ++ rest)
      = DecOutcome.done
          { st with totalLines := st.totalLines + 1, metaEnd := true
                  , decoded := some { d with valid := true } }
          rest := by
  have hstream : (lb ++ EOL) ++ rest = (lb ++ [13]) ++ 10 :: rest := by
    simp [EOL, List.append_assoc]
  have hrl : readLine ((lb ++ [13]) ++ 10 :: rest) = (lb ++ EOL, rest) := by
    rw [readLine_append _ _ h10]
    simp [EOL, List.append_assoc]
  rcases st with ⟨mb, mp, me, pt, dc, cr, tl, ln, db, mx⟩
  dsimp only at hme hbeg hdec
  subst hme hbeg hdec
  rw [hstream, decodeLoopF, isEmpty_append13]
  simp only [Bool.false_eq_true, if_false, hrl, hdet, hkey,
    keyIn, setKey, Option.getD]
  simp only [Bool.not_true, Bool.false_and, Bool.and_false,
    Bool.false_eq_true, if_false]

end CodecYenc

namespace CodecYenc

/-- The decoder's filename normalization applied to a `name=` capture:
`f_map['name'] = basename(f_map['name']).strip()` on the regex capture
(CodecYenc.py lines 399-400 with the `name=(?P<name>...)` group of
`YENC_RE`). -/
def normName (name : List Nat) : List Nat :=
  stripWS (basenameBytes (nameCapture name))

/-- Claim C2 (amended): for every Content whose filename holds no newline
byte and whose payload is a byte string (each byte below 256), decoding
the yEnc encoding of the Content with a fresh decoder yields a finished
Content carrying exactly the original payload bytes and part number,
marked valid, with the whole stream consumed; the filename is the
original's after the decoder's basename/strip capture normalization.
(The byte-identity claimed for the whole Content fails for filenames
containing a newline — see the counterexample — because the encoder
never escapes the header line while the decoder reads per line.) -/
theorem yenc_roundtrip (L part total : Nat) (name : List Nat)
    (beginOff endOff : Nat) (payload : List Nat) (parentCrc : Option Nat)
    (hL : 2 ≤ L) (h10 : 10 ∉ name) (hb : ∀ b ∈ payload, b < 256) :
    ∃ st, decode freshState
        (encode L part total name beginOff endOff payload parentCrc)
      = DecodeResult.finished
          (some { filename := normName name, part := part
                , data := payload, valid := true })
          st [] := by
  have hs : encode L part total name beginOff endOff payload parentCrc
      = (ybeginLine part total L payload.length name ++ EOL)
        ++ ((ypartLine (beginOff + 1) endOff ++ EOL)
          ++ ((((wrapLinesF ((yencEscape payload).length + 1) L
                (yencEscape payload)).map (fun l => l ++ EOL)).flatten)
            ++ ((yendLine payload.length part (crc32 payload) parentCrc
                ++ EOL) ++ []))) := by
    simp [encode, wrapLines, List.append_assoc]
  obtain ⟨k, st', hk, hdec', hbeg', hmp', hme', hpt', hmx', hrun⟩ :=
    payload_stream_decode ((yencEscape payload).length + 1) L payload
      ⟨true, true, false, part, some ⟨normName name, part, [], false⟩,
        0, 0 + 1 + 1, 0, 0, 0⟩
      ⟨normName name, part, [], false⟩
      hL hb (by omega) rfl rfl rfl
  have hlen : k + 2 ≤ (encode L part total name beginOff endOff payload
      parentCrc).length := by
    rw [hs]
    simp only [List.length_append, show EOL.length = 2 from rfl,
      List.length_nil]
    omega
  obtain ⟨f, hf⟩ : ∃ f, (encode L part total name beginOff endOff payload
        parentCrc).length + 1
      = ((k + (f + 1)) + 1) + 1 :=
    ⟨(encode L part total name beginOff endOff payload parentCrc).length
      - (k + 2), by omega⟩
  exact ⟨_, by
    rw [decode, hf, hs]
    rw [decode_begin_line_step freshState _ _ _ _ part (normName name)
        (ten_not_mem_ybegin part total L payload.length name h10)
        (detect_ybegin part total L payload.length name h10) rfl rfl rfl rfl]
    dsimp only [freshState]
    rw [decode_part_line_step _ _ _ _ _ _
        (ten_not_mem_ypart (beginOff + 1) endOff)
        (detect_ypart (beginOff + 1) endOff) rfl rfl rfl rfl rfl]
    dsimp only
    rw [hrun (f + 1) ((yendLine payload.length part (crc32 payload) parentCrc
        ++ EOL) ++ [])]
    rw [decode_end_line_step st' _ _ _ _ _
        (ten_not_mem_yend payload.length part (crc32 payload) parentCrc)
        (detect_yend payload.length part (crc32 payload) parentCrc)
        rfl (by rw [hme']) hbeg' hdec']
    rfl⟩

/-- Claim C2, counterexample to the literal statement: for the Content
with filename `'a\nb'` and empty payload, the `=ybegin` header is split
by the filename's newline, so the decoder takes `'b'` for a payload line
and returns a Content with filename `'a'` and one decoded byte — not a
Content byte-identical to the original (whose payload is empty). -/
theorem yenc_roundtrip_counterexample :
    decodeResultContent
        (decode freshState (encode 128 1 1 [97, 10, 98] 0 0 [] none))
      = some { filename := [97], part := 1, data := [56], valid := true }
    ∧ ([56] : List Nat) ≠ ([] : List Nat) :=
  ⟨by decide, by decide⟩

/-- Witness instantiating the C2 round-trip theorem at a concrete
Content: linelen 128, part 1 of 1, filename `'a'`, payload bytes
`0, '=', 'A'` (one escaped, two plain). -/
theorem yenc_roundtrip_witness :
    ((2 : Nat) ≤ 128 ∧ (10 : Nat) ∉ ([97] : List Nat)
      ∧ ∀ b ∈ ([0, 61, 65] : List Nat), b < 256)
    ∧ ∃ st, decode freshState (encode 128 1 1 [97] 0 3 [0, 61, 65] none)
        = DecodeResult.finished
            (some { filename := normName [97], part := 1
                  , data := [0, 61, 65], valid := true }) st [] :=
  ⟨⟨by decide, by decide, by decide⟩,
    yenc_roundtrip 128 1 1 [97] 0 3 [0, 61, 65] none (by decide) (by decide)
      (by decide)⟩

end CodecYenc
